import Mathlib

/-!
# Retrieval tree (`src/C/RetrievalTree/Trie.c`)

A shallow embedding of the word-frequency trie and of the co-occurrence
indexer built on it.

* A C string is the list of its characters before the terminating NUL.
* A pointer to a node is an `Option TrieNode`: `none` is `NULL`.  A node is
  stored in exactly one slot, so the heap is a tree and a pointer can be
  replaced by the node it points to.
* A function that writes through a pointer returns the new contents.
* A run that would access memory outside an object, or use the value of a call
  that returned none, returns `Except.error`.
-/

namespace Trie

/-- The size of the word buffers, `WORD_MAX_LEN`. -/
def WORD_MAX_LEN : Nat := 1024

/-- The number of slots of the sentence buffer, `SENTENCE_MAX_LEN`. -/
def SENTENCE_MAX_LEN : Nat := 21

/-- The ways a run can leave defined behaviour. -/
inductive Fault where
  | outOfBounds
  | nullDereference
  | noReturnValue
  deriving DecidableEq

/-- Modelled from the spec: the node type of `Trie.h`, which is not part of the
sources.  A node has the count of the word ending at it, 26 child slots and the
pointer to its subtrie.  The count is a natural number (the spec's non-negative
`terminalCount`); the 26 slots are a list, and `slot` below reports an access
outside it. -/
inductive TrieNode where
  | mk (count : Nat) (children : List (Option TrieNode)) (subtrie : Option TrieNode)

namespace TrieNode

/-- Field `count`. -/
def count : TrieNode → Nat
  | mk c _ _ => c

/-- Field `children`. -/
def children : TrieNode → List (Option TrieNode)
  | mk _ ch _ => ch

/-- Field `subtrie`. -/
def subtrie : TrieNode → Option TrieNode
  | mk _ _ s => s

end TrieNode

/-- The block that `calloc(1, sizeof(TrieNode))` gives: count 0, 26 `NULL`
children and a `NULL` subtrie. -/
def zeroedNode : TrieNode :=
  .mk 0 (List.replicate 26 none) none

/-- The function `createTrieNode`.  Allocation is taken to succeed, so `trie`
is not `NULL`; the branch `trie == NULL` is the only one with a `return`, and
past it the body runs to its closing brace without a `return` for the
allocated node.  The call then has no value; each of the three callers uses
the value, which is the fault `noReturnValue`. -/
def createTrieNode : Except Fault (Option TrieNode) :=
  let trie : Option TrieNode := some zeroedNode
  match trie with
  | none => .ok none
  | some _ => .error .noReturnValue

/-- The index computed by
`letter = (*str - 'a' < 0) ? *str - 'A' : *str - 'a'`. -/
def letterOf (c : Char) : Int :=
  if (c.toNat : Int) - ('a'.toNat : Int) < 0 then (c.toNat : Int) - ('A'.toNat : Int)
  else (c.toNat : Int) - ('a'.toNat : Int)

/-- The read of `children[letter]`: `none` when the index is outside the array. -/
def slot (children : List (Option TrieNode)) (letter : Int) : Option (Option TrieNode) :=
  if letter < 0 then none else children[letter.toNat]?

/-- The function `insertString`.  The result is the new contents of `root`. -/
def insertString : Option TrieNode → List Char → Except Fault (Option TrieNode)
  | none, _ => .ok none
  | some root, [] => .ok (some (.mk (root.count + 1) root.children root.subtrie))
  | some root, c :: str =>
    if c = '.' then .ok (some root)
    else
      match slot root.children (letterOf c) with
      | none => .error .outOfBounds
      | some none =>
        match createTrieNode with
        | .error e => .error e
        | .ok child =>
          match insertString child str with
          | .error e => .error e
          | .ok child' =>
            .ok (some (.mk root.count (root.children.set (letterOf c).toNat child')
              root.subtrie))
      | some (some child) =>
        match insertString (some child) str with
        | .error e => .error e
        | .ok child' =>
          .ok (some (.mk root.count (root.children.set (letterOf c).toNat child') root.subtrie))

/-- The function `getNode`; `.ok none` is the `NULL` result. -/
def getNode : TrieNode → List Char → Except Fault (Option TrieNode)
  | root, [] => if root.count = 0 then .ok none else .ok (some root)
  | root, c :: str =>
    match slot root.children (letterOf c) with
    | none => .error .outOfBounds
    | some none => .ok none
    | some (some child) => getNode child str

/-- The test `!strcasecmp(a, b)`. -/
def strcasecmpEq (a b : List Char) : Bool :=
  a.map Char.toLower == b.map Char.toLower

/-- A store through the pointer that `getNode root str` returned: the node at
the end of the path of `str` becomes `node`.  The path is the one `getNode`
walked, so it exists whenever `getNode` returned a node. -/
def putNode : TrieNode → List Char → TrieNode → TrieNode
  | _, [], node => node
  | root, c :: str, node =>
    match slot root.children (letterOf c) with
    | some (some child) =>
      .mk root.count (root.children.set (letterOf c).toNat (some (putNode child str node)))
        root.subtrie
    | _ => root

/-- The inner loop of `processSentence` over `j`, for the word `w = sentence[i]`
whose node is `lex`; `rest` is `sentence[j..numWords)`.  The result is the new
contents of `lex`. -/
def coOccurrences (w : List Char) :
    List (List Char) → Option TrieNode → Except Fault (Option TrieNode)
  | [], lex => .ok lex
  | v :: rest, lex =>
    if strcasecmpEq w v then coOccurrences w rest lex
    else
      match lex with
      | none => .error .nullDereference
      | some node =>
        match (if node.subtrie.isNone then createTrieNode else .ok node.subtrie) with
        | .error e => .error e
        | .ok subtrie =>
          match insertString subtrie v with
          | .error e => .error e
          | .ok sub => coOccurrences w rest (some (.mk node.count node.children sub))

/-- The outer loop of `processSentence` over `i`: `before` is `sentence[0..i)`
and `rest` is `sentence[i..numWords)`. -/
def processSentenceLoop (sentence : List (List Char)) :
    List (List Char) → List (List Char) → TrieNode → Except Fault TrieNode
  | _, [], root => .ok root
  | before, w :: rest, root =>
    let newInstance := before.all fun u => !strcasecmpEq w u
    match getNode root w with
    | .error e => .error e
    | .ok lex =>
      if newInstance then
        match coOccurrences w sentence lex with
        | .error e => .error e
        | .ok none => processSentenceLoop sentence (before ++ [w]) rest root
        | .ok (some node) => processSentenceLoop sentence (before ++ [w]) rest (putNode root w node)
      else processSentenceLoop sentence (before ++ [w]) rest root

/-- The function `processSentence` on the first `numWords` entries of the
sentence buffer, given as the list `sentence`. -/
def processSentence (root : TrieNode) (sentence : List (List Char)) : Except Fault TrieNode :=
  processSentenceLoop sentence [] sentence root

/-- The loop of `buildSubTries` over the tokens `fscanf` reads: `sentence` holds
`sentence[0..count)`.  A token is stored in slot `count` of the
`SENTENCE_MAX_LEN` slots, each of `WORD_MAX_LEN` bytes. -/
def buildSubTriesLoop :
    List (List Char) → List (List Char) → TrieNode → Except Fault TrieNode
  | [], _, root => .ok root
  | tok :: rest, sentence, root =>
    if SENTENCE_MAX_LEN ≤ sentence.length ∨ WORD_MAX_LEN ≤ tok.length then .error .outOfBounds
    else if tok.head? = some '.' then
      match processSentence root sentence with
      | .error e => .error e
      | .ok root' => buildSubTriesLoop rest [] root'
    else buildSubTriesLoop rest (sentence ++ [tok]) root

/-- The function `buildSubTries` on the tokens of the corpus file. -/
def buildSubTries (tokens : List (List Char)) (root : TrieNode) : Except Fault TrieNode :=
  buildSubTriesLoop tokens [] root

/-- The first loop of `buildTrie`: every token of the file is read into a buffer
of `WORD_MAX_LEN` bytes and inserted. -/
def insertTokens : List (List Char) → Option TrieNode → Except Fault (Option TrieNode)
  | [], root => .ok root
  | tok :: rest, root =>
    if WORD_MAX_LEN ≤ tok.length then .error .outOfBounds
    else
      match insertString root tok with
      | .error e => .error e
      | .ok root' => insertTokens rest root'

/-- The function `buildTrie` on the tokens of the corpus file (the file is taken
to exist). -/
def buildTrie (tokens : List (List Char)) : Except Fault (Option TrieNode) :=
  match createTrieNode with
  | .error e => .error e
  | .ok root =>
    match insertTokens tokens root with
    | .error e => .error e
    | .ok none => .ok none
    | .ok (some root) =>
      match buildSubTries tokens root with
      | .error e => .error e
      | .ok root' => .ok (some root')

mutual
/-- The body of `printTrieHelper` for a node (`root != NULL`): the
`(buffer, count)` pairs it prints, in order.  `buffer` holds the `k` characters
`buffer[0..k)`. -/
def printTrieNode : TrieNode → List Char → List (List Char × Nat)
  | .mk count children _, buffer =>
    (if count > 0 then [(buffer, count)] else []) ++ printTrieLoop children buffer 0
/-- The loop of `printTrieHelper` over the child slots from index `i` on; the
call on a `NULL` child returns at once. -/
def printTrieLoop : List (Option TrieNode) → List Char → Nat → List (List Char × Nat)
  | [], _, _ => []
  | none :: rest, buffer, i => printTrieLoop rest buffer (i + 1)
  | some child :: rest, buffer, i =>
    printTrieNode child (buffer ++ [Char.ofNat ('a'.toNat + i)])
      ++ printTrieLoop rest buffer (i + 1)
end

/-- The function `printTrieHelper`.  The buffer is the caller's: it is taken to
have room for the characters written (`printTrie` below checks this). -/
def printTrieHelper : Option TrieNode → List Char → List (List Char × Nat)
  | none, _ => []
  | some root, buffer => printTrieNode root buffer

mutual
/-- The number of nodes on the longest path from a node down to a leaf. -/
def height : TrieNode → Nat
  | .mk _ children _ => 1 + heightChildren children
/-- The largest height below the given slots, 0 when all are `NULL`. -/
def heightChildren : List (Option TrieNode) → Nat
  | [] => 0
  | none :: rest => heightChildren rest
  | some child :: rest => max (height child) (heightChildren rest)
end

/-- The function `printTrie`.  Its buffer has `WORD_MAX_LEN + 2` bytes; the call
of `printTrieHelper` on a node at depth `d` writes `buffer[k + d + 1]`, where `k`
is the length of the prefix, so the traversal stays inside the buffer exactly
when `k` plus the height of the trie is at most `WORD_MAX_LEN + 1`. -/
def printTrie (root : Option TrieNode) (useSubtrieFormatting : Bool) :
    Except Fault (List (List Char × Nat)) :=
  let buffer := if useSubtrieFormatting then "- ".toList else []
  match root with
  | none => .ok []
  | some r =>
    if WORD_MAX_LEN + 2 ≤ buffer.length + height r then .error .outOfBounds
    else .ok (printTrieHelper root buffer)

/-- The line `printf("%s (%d)\n", buffer, count)` writes, without the newline. -/
def formatEntry (e : List Char × Nat) : List Char :=
  e.1 ++ " (".toList ++ (Nat.repr e.2).toList ++ ")".toList

/-- The lines of a listing. -/
def formatListing (listing : Except Fault (List (List Char × Nat))) :
    Except Fault (List (List Char)) :=
  match listing with
  | .error e => .error e
  | .ok entries => .ok (entries.map formatEntry)

/-- The loop of `main` over the tokens of the input file, each read into a
buffer of `WORD_MAX_LEN` bytes: the lines printed. -/
def mainLoop (r : TrieNode) : List (List Char) → Except Fault (List (List Char))
  | [] => .ok []
  | q :: rest =>
    if WORD_MAX_LEN ≤ q.length then .error .outOfBounds
    else
      match
        (if q = "!".toList then formatListing (printTrie (some r) false)
         else
          match getNode r q with
          | .error e => .error e
          | .ok none => .ok [q, "(INVALID STRING)".toList]
          | .ok (some s) =>
            if s.subtrie.isNone then .ok [q, "(EMPTY)".toList]
            else
              match formatListing (printTrie s.subtrie true) with
              | .error e => .error e
              | .ok lines => .ok (q :: lines) :
          Except Fault (List (List Char))) with
      | .error e => .error e
      | .ok lines =>
        match mainLoop r rest with
        | .error e => .error e
        | .ok more => .ok (lines ++ more)

/-- The function `main` on the tokens of the corpus file and of the input file. -/
def main (corpus queries : List (List Char)) : Except Fault (List (List Char)) :=
  match buildTrie corpus with
  | .error e => .error e
  | .ok none => .error .nullDereference
  | .ok (some r) => mainLoop r queries

/-! ### Notions used to state the properties -/

/-- The letter the traversal writes for slot `i`: `'a' + i`. -/
def letterChar (i : Nat) : Char :=
  Char.ofNat ('a'.toNat + i)

/-- The 52 alphabetic characters. -/
def letters : List Char :=
  "ABCDEFGHIJKLMNOPQRSTUVWXYZabcdefghijklmnopqrstuvwxyz".toList

/-- An alphabetic word: every character is an English letter. -/
def Alphabetic (w : List Char) : Prop :=
  ∀ c ∈ w, c.isAlpha = true

instance (w : List Char) : Decidable (Alphabetic w) :=
  inferInstanceAs (Decidable (∀ c ∈ w, c.isAlpha = true))

/-- The word folded to lower case. -/
def lower (w : List Char) : List Char :=
  w.map Char.toLower

/-- The slot indices `insertString` and `getNode` follow for a word. -/
def path (w : List Char) : List Nat :=
  w.map fun c => (letterOf c).toNat

/-- The node reached from a pointer along slot indices, whatever its count. -/
def nodeAt : Option TrieNode → List Nat → Option TrieNode
  | t, [] => t
  | none, _ :: _ => none
  | some r, i :: p => nodeAt (r.children.getD i none) p

/-- The count stored at the end of a path of slot indices; 0 when there is no
node. -/
def countAt (t : Option TrieNode) (p : List Nat) : Nat :=
  match nodeAt t p with
  | none => 0
  | some n => n.count

/-- The subtrie pointer stored at the end of a path of slot indices. -/
def subtrieAt (t : Option TrieNode) (p : List Nat) : Option TrieNode :=
  match nodeAt t p with
  | none => none
  | some n => n.subtrie

mutual
/-- Every node of the tree, subtries included, has exactly 26 child slots. -/
def WF : TrieNode → Bool
  | .mk _ children subtrie =>
    decide (children.length = 26) && WFChildren children &&
      (match subtrie with
       | none => true
       | some s => WF s)
/-- Every node below the given slots is well formed. -/
def WFChildren : List (Option TrieNode) → Bool
  | [] => true
  | none :: rest => WFChildren rest
  | some child :: rest => WF child && WFChildren rest
end

/-- A pointer is `NULL` or points to a well-formed node. -/
def WFPtr : Option TrieNode → Bool
  | none => true
  | some t => WF t

/-- A finite sequence of `insertString` calls on the same root. -/
def insertAll : List (List Char) → Option TrieNode → Except Fault (Option TrieNode)
  | [], root => .ok root
  | w :: rest, root =>
    match insertString root w with
    | .error e => .error e
    | .ok root' => insertAll rest root'

/-- A finite sequence of `processSentence` calls on the same root. -/
def processAll : List (List (List Char)) → TrieNode → Except Fault TrieNode
  | [], root => .ok root
  | s :: rest, root =>
    match processSentence root s with
    | .error e => .error e
    | .ok root' => processAll rest root'

end Trie

/-!
# Huge integers (`src/C/HugeIntegerFibonacci/Fibbonaci.c`)

* An `int` is an `Int`; where the source can leave the range of a 32-bit `int`
  or `unsigned int` on ordinary inputs (`toUnsignedInt`), the arithmetic wraps
  modulo `2 ^ 32`, as it does on the usual two's complement machines.
* Lengths and loop counters are natural numbers, taken to stay inside `int`.
* Allocation is taken to succeed and the pointers passed in are not `NULL`;
  `hugeDestroyer` only frees memory and has no counterpart here.
-/

namespace Fibonacci

/-- The constant `UINT_MAX` of `limits.h` for a 32-bit `unsigned int`. -/
def UINT_MAX : Nat := 4294967295

/-- A value brought into the range of a 32-bit `int`. -/
def wrapInt (x : Int) : Int :=
  (x + 2147483648) % 4294967296 - 2147483648

/-- A value brought into the range of a 32-bit `unsigned int`. -/
def wrapUInt (x : Int) : Nat :=
  (x % 4294967296).toNat

/-- Modelled from the spec: the struct `HugeInteger` of `Fibonacci.h`, which is
not part of the sources.  It has the two fields the functions use: the array
`digits` (here with all the cells that were allocated, least significant digit
first) and the number `length` of cells in use. -/
structure HugeInteger where
  digits : List Int
  length : Nat
  deriving DecidableEq

/-- The loop `while (count != 0) { count /= 10; p->length++; }` of `parseInt`:
the number of rounds.  The first argument bounds the rounds; `count` rounds
are enough, as every round makes `count` smaller. -/
def countDigits : Nat → Nat → Nat
  | 0, _ => 0
  | fuel + 1, count => if count ≠ 0 then countDigits fuel (count / 10) + 1 else 0

/-- The loop of `parseInt` that stores `n % 10` and divides `n` by 10, for the
cells `i`, `i + 1`, ... of which `k` are left. -/
def storeDigits : Nat → Nat → List Int
  | 0, _ => []
  | k + 1, n => ((n % 10 : Nat) : Int) :: storeDigits k (n / 10)

/-- The function `parseInt` on an `unsigned int`. -/
def parseInt (n : Nat) : HugeInteger :=
  let length := countDigits n n + (if n = 0 then 1 else 0)
  { digits := storeDigits length n, length := length }

/-- The function `parseString`: cell `i` gets the character `length - 1 - i`
minus `'0'`; the empty string gives the single digit 0. -/
def parseString (str : List Char) : HugeInteger :=
  if str = [] then { digits := [0], length := 1 }
  else
    { digits := str.reverse.map fun c => (c.toNat : Int) - ('0'.toNat : Int),
      length := str.length }

/-- The comparison loop of `toUnsignedInt` from cell `i - 1` down to cell 0:
`true` when it returns `NULL`, `false` when it breaks or runs to its end. -/
def exceedsLoop (p hugeUINT_MAX : HugeInteger) : Nat → Bool
  | 0 => false
  | i + 1 =>
    if p.digits.getD i 0 > hugeUINT_MAX.digits.getD i 0 then true
    else if p.digits.getD i 0 < hugeUINT_MAX.digits.getD i 0 then false
    else exceedsLoop p hugeUINT_MAX i

/-- The conversion loop of `toUnsignedInt` from cell `i` on, `k` cells left:
`*n += p->digits[i] * magnitude; magnitude *= 10;` with an `unsigned int`
`*n` and an `int` `magnitude`. -/
def convertLoop (p : HugeInteger) : Nat → Nat → Nat → Int → Nat
  | 0, _, n, _ => n
  | k + 1, i, n, magnitude =>
    convertLoop p k (i + 1) (wrapUInt (n + wrapInt (p.digits.getD i 0 * magnitude)))
      (wrapInt (magnitude * 10))

/-- The function `toUnsignedInt`; `none` is the `NULL` result. -/
def toUnsignedInt (p : HugeInteger) : Option Nat :=
  let hugeUINT_MAX := parseInt UINT_MAX
  if p.length > hugeUINT_MAX.length then none
  else if p.length = hugeUINT_MAX.length ∧
      exceedsLoop p hugeUINT_MAX hugeUINT_MAX.length = true then none
  else some (convertLoop p p.length 0 0 1)

/-- The addition loop of `hugeAdd` from cell `i` on, `k` cells left, on the
array `r` of the result. -/
def addLoop (p q : HugeInteger) : Nat → Nat → List Int → List Int
  | 0, _, r => r
  | k + 1, i, r =>
    let r₁ := r.set i (r.getD i 0 +
      (if i < q.length then p.digits.getD i 0 + q.digits.getD i 0 else p.digits.getD i 0))
    let r₂ :=
      if r₁.getD i 0 > 9 then
        (r₁.set i ((r₁.getD i 0).tmod 10)).set (i + 1) (r₁.getD (i + 1) 0 + 1)
      else r₁
    addLoop p q k (i + 1) r₂

/-- The function `hugeAdd`. -/
def hugeAdd (p q : HugeInteger) : HugeInteger :=
  let p' := if p.length < q.length then q else p
  let q' := if p.length < q.length then p else q
  let r := addLoop p' q' p'.length 0 (List.replicate (p'.length + 1) 0)
  { digits := r,
    length := if p'.length < q'.length + 3 ∧ r.getD p'.length 0 ≠ 0 then p'.length + 1
      else p'.length }

/-- The loop of `fib` for `i = 2, ..., n`, `k` rounds left: the value of `r`
after the last round, which is the `q` of that round. -/
def fibLoop : Nat → HugeInteger → HugeInteger → HugeInteger
  | 0, _, q => q
  | k + 1, p, q => fibLoop k q (hugeAdd p q)

/-- The function `fib` on an `n ≥ 0`; for `n ≥ 2` the loop has `n - 1` rounds. -/
def fib (n : Nat) : HugeInteger :=
  if n = 0 then parseInt 0
  else if n = 1 then parseInt 1
  else fibLoop (n - 1) (parseInt 0) (parseInt 1)

/-- The number a list of digits stands for, least significant digit first. -/
def valueOf (l : List Int) : Int :=
  l.foldr (fun d acc => d + 10 * acc) 0

/-- The number a `HugeInteger` stands for: its digits over its length. -/
def value (h : HugeInteger) : Int :=
  valueOf (h.digits.take h.length)

/-- The decimal digits of a natural number, least significant first; the number
0 has the one digit 0. -/
def decimalDigits (n : Nat) : List Int :=
  if n = 0 then [0] else (Nat.digits 10 n).map Int.ofNat

/-- The digits in use are decimal digits, and the cells in use exist. -/
def Decimal (h : HugeInteger) : Prop :=
  h.length ≤ h.digits.length ∧ ∀ d ∈ h.digits.take h.length, 0 ≤ d ∧ d ≤ 9

instance (h : HugeInteger) : Decidable (Decimal h) :=
  inferInstanceAs (Decidable (_ ∧ _))

end Fibonacci

/-!
# Quadratic sorts (`src/C/QuadraticSorts/nSquaredSorts.c`)

An `int` array is the list of its cells; the values are only compared, never
computed with.  Indices and lengths are natural numbers, taken to stay inside
`int`.  A loop is a recursion on the number of rounds it has left.
-/

namespace QuadraticSorts

/-- The function `swap`. -/
def swap (array : List Int) (i j : Nat) : List Int :=
  let temp := array.getD i 0
  (array.set i (array.getD j 0)).set j temp

/-- The inner loop of `bubble_sort` from index `j` on, `k` rounds left: the
array and the flag `swapped` after it. -/
def bubbleInner : Nat → Nat → List Int → Bool → List Int × Bool
  | 0, _, array, swapped => (array, swapped)
  | k + 1, j, array, swapped =>
    if array.getD j 0 > array.getD (j + 1) 0 then
      bubbleInner k (j + 1) (swap array j (j + 1)) true
    else bubbleInner k (j + 1) array swapped

/-- The outer loop of `bubble_sort` from `i` on, `k = n - i` rounds left at
most: it stops when `swapped` is 0. -/
def bubbleOuter (n : Nat) : Nat → Nat → List Int → Bool → List Int
  | 0, _, array, _ => array
  | k + 1, i, array, swapped =>
    if swapped then
      bubbleOuter n k (i + 1) (bubbleInner (n - i - 1) 0 array false).1
        (bubbleInner (n - i - 1) 0 array false).2
    else array

/-- The function `bubble_sort`. -/
def bubble_sort (array : List Int) (n : Nat) : List Int :=
  bubbleOuter n n 0 array true

/-- The inner loop of `selection_sort` from index `j` on, `k` rounds left: the
final `minIndex`. -/
def selectMin (array : List Int) : Nat → Nat → Nat → Nat
  | 0, _, minIndex => minIndex
  | k + 1, j, minIndex =>
    if array.getD j 0 < array.getD minIndex 0 then selectMin array k (j + 1) j
    else selectMin array k (j + 1) minIndex

/-- The outer loop of `selection_sort` from `i` on, `k = n - 1 - i` rounds
left. -/
def selectionOuter (n : Nat) : Nat → Nat → List Int → List Int
  | 0, _, array => array
  | k + 1, i, array =>
    selectionOuter n k (i + 1) (swap array (selectMin array (n - (i + 1)) (i + 1) i) i)

/-- The function `selection_sort`. -/
def selection_sort (array : List Int) (n : Nat) : List Int :=
  selectionOuter n (n - 1) 0 array

/-- The `while` loop of `insertion_sort` from `gap` down: the array and the
`gap` after it. -/
def insertInner : Nat → List Int → List Int × Nat
  | 0, array => (array, 0)
  | gap + 1, array =>
    if array.getD (gap + 1) 0 < array.getD gap 0 then
      insertInner gap (swap array (gap + 1) gap)
    else (array, gap + 1)

/-- The outer loop of `insertion_sort` from `i` on, `k = n - i` rounds left;
the loop ends with the store `array[gap] = val`. -/
def insertionOuter : Nat → Nat → List Int → List Int
  | 0, _, array => array
  | k + 1, i, array =>
    let val := array.getD i 0
    insertionOuter k (i + 1) ((insertInner i array).1.set (insertInner i array).2 val)

/-- The function `insertion_sort`. -/
def insertion_sort (array : List Int) (n : Nat) : List Int :=
  insertionOuter (n - 1) 1 array

/-- The loop of `unsorted` from index `i` on, `k` rounds left. -/
def unsortedLoop (array : List Int) : Nat → Nat → Int
  | 0, _ => 0
  | k + 1, i =>
    if array.getD i 0 > array.getD (i + 1) 0 then 1 else unsortedLoop array k (i + 1)

/-- The function `unsorted`. -/
def unsorted (array : List Int) (n : Nat) : Int :=
  unsortedLoop array (n - 1) 0

end QuadraticSorts

/-!
# Merge sort (`src/C/MergeSort/MergeSort.c`)

An `int` array is the list of its cells.  Indices are natural numbers, taken
to stay inside `int`.  A read or a write outside an array, and a read of a cell
of `aux` that was never written, is the result `none`; `malloc` is taken to
succeed.  The block `aux` is the list of the cells written so far, `k` being
its length, together with the number of cells it has left.
-/

namespace Merge

/-- The test `i > mid || (j <= hi && array[j] < array[i])` of the merge loop,
with the reads it makes. -/
def takesRight (array : List Int) (mid hi i j : Nat) : Option Bool :=
  if i > mid then some true
  else if j ≤ hi then
    match array[j]?, array[i]? with
    | some x, some y => some (decide (x < y))
    | _, _ => none
  else some false

/-- The `while` loop of `MergeSort` at `i`, `j`, with `aux` holding the cells
written so far and `room` cells left in it. -/
def mergeLoop (array : List Int) (mid hi : Nat) : Nat → Nat → Nat → List Int → Option (List Int)
  | 0, i, j, aux => if i ≤ mid ∨ j ≤ hi then none else some aux
  | room + 1, i, j, aux =>
    if i ≤ mid ∨ j ≤ hi then
      match takesRight array mid hi i j with
      | none => none
      | some true =>
        match array[j]? with
        | none => none
        | some x => mergeLoop array mid hi room i (j + 1) (aux ++ [x])
      | some false =>
        match array[i]? with
        | none => none
        | some x => mergeLoop array mid hi room (i + 1) j (aux ++ [x])
    else some aux

/-- The `for` loop of `MergeSort` that copies `aux` back, at index `i` with
`n` rounds left. -/
def copyBack (aux : List Int) (lo : Nat) : Nat → Nat → List Int → Option (List Int)
  | 0, _, array => some array
  | n + 1, i, array =>
    match aux[i - lo]? with
    | none => none
    | some x => if i < array.length then copyBack aux lo n (i + 1) (array.set i x) else none

/-- The function `MergeSort`: the array after the call, or `none` on a fault.
The recursion is on `hi - lo`. -/
def MergeSort (array : List Int) (lo hi : Nat) : Option (List Int) :=
  if lo ≥ hi then some array
  else
    match MergeSort array lo (lo + (hi - lo) / 2) with
    | none => none
    | some left =>
      match MergeSort left (lo + (hi - lo) / 2 + 1) hi with
      | none => none
      | some both =>
        match mergeLoop both (lo + (hi - lo) / 2) hi (hi - lo + 1) lo (lo + (hi - lo) / 2 + 1) [] with
        | none => none
        | some aux => copyBack aux lo (hi + 1 - lo) lo both
termination_by hi - lo
decreasing_by
  all_goals omega

/-- The cells `array[lo..hi]`. -/
def segment (array : List Int) (lo hi : Nat) : List Int :=
  (array.drop lo).take (hi + 1 - lo)

end Merge

/-!
# Radix sort and its queues (`src/C/RadixSort/radix.c`, `queue.c`)

* An `int` is an `Int`.  The one computation that leaves the range of a 32-bit
  `int` on ordinary inputs is `pow *= 10`; it wraps modulo `2 ^ 32`, as it does
  on the usual two's complement machines.  The division of C truncates
  (`Int.tdiv`, `Int.tmod`).
* A pointer to a `Queue` is an `Option`; the nodes are cells of a store that is
  kept with the queue they were allocated for, a pointer to a node being the
  index of its cell and a freed node an empty cell.  Allocation is taken to
  succeed.
* A division by zero, a read or write outside an array, and an access through
  `NULL` or to a freed node is the result `none`.
-/

namespace Radix

/-- The constant `INT_MAX` of `limits.h` for a 32-bit `int`. -/
def INT_MAX : Int := 2147483647

/-- A value brought into the range of a 32-bit `int`. -/
def wrapInt (x : Int) : Int :=
  (x + 2147483648) % 4294967296 - 2147483648

/-- Modelled from the spec: the struct `node` of `node.h`, which is not part of
the sources.  It has the two fields `queue.c` uses: `data` and the pointer
`next`. -/
structure node where
  data : Int
  next : Option Nat
  deriving DecidableEq

/-- Modelled from the spec: the struct `Queue` of `queue.h`, which is not part
of the sources, with the two pointers `head` and `tail` that `queue.c` uses;
`nodes` is the store of the nodes allocated for this queue. -/
structure Queue where
  nodes : List (Option node)
  head : Option Nat
  tail : Option Nat
  deriving DecidableEq

/-- Modelled from the spec: the function `createNode` of `node.c`, which is not
part of the sources.  It allocates a node that holds `data` and has no
successor, and returns the pointer to it. -/
def createNode (nodes : List (Option node)) (data : Int) : List (Option node) × Option Nat :=
  (nodes ++ [some ⟨data, none⟩], some nodes.length)

/-- The function `initQueue`. -/
def initQueue : Option Queue :=
  some ⟨[], none, none⟩

/-- The function `isEmpty`; `true` is the result 1. -/
def isEmpty : Option Queue → Option Bool
  | none => none
  | some p => some p.head.isNone

/-- The function `enqueue`: the queue after the call and the value returned. -/
def enqueue : Option Queue → Int → Option (Option Queue × Int)
  | none, _ => some (none, -1)
  | some p, data =>
    if p.head.isNone then
      match createNode p.nodes data with
      | (nodes, none) => some (some ⟨nodes, none, none⟩, -1)
      | (nodes, some a) => some (some ⟨nodes, some a, some a⟩, data)
    else
      match p.tail with
      | none => none
      | some t =>
        match p.nodes[t]? with
        | some (some last) =>
          match createNode p.nodes data with
          | (nodes, none) => some (some ⟨nodes.set t (some ⟨last.data, none⟩), p.head, p.tail⟩, -1)
          | (nodes, some a) =>
            some (some ⟨nodes.set t (some ⟨last.data, some a⟩), p.head, some a⟩, data)
        | _ => none

/-- The function `dequeue`: the queue after the call and the value returned. -/
def dequeue : Option Queue → Option (Option Queue × Int)
  | none => some (none, -1)
  | some p =>
    match p.head with
    | none => some (some p, -1)
    | some a =>
      match p.nodes[a]? with
      | some (some first) => some (some ⟨p.nodes.set a none, first.next, p.tail⟩, first.data)
      | _ => none

/-- The loop of `RadixSort` that finds the largest cell, at index `i` with `k`
rounds left. -/
def findMax (array : List Int) : Nat → Nat → Int → Option Int
  | 0, _, max => some max
  | k + 1, i, max =>
    match array[i]? with
    | none => none
    | some x => if x > max then findMax array k (i + 1) x else findMax array k (i + 1) max

/-- The loop of `RadixSort` that places the cells into the buckets, at index
`i` with `k` rounds left. -/
def place (array : List Int) (pow : Int) :
    Nat → Nat → List (Option Queue) → Option (List (Option Queue))
  | 0, _, buckets => some buckets
  | k + 1, i, buckets =>
    match array[i]? with
    | none => none
    | some x =>
      if pow = 0 then none
      else if (x.tdiv pow).tmod 10 < 0 then none
      else
        match buckets[((x.tdiv pow).tmod 10).toNat]? with
        | none => none
        | some p =>
          match enqueue p x with
          | none => none
          | some (p1, _) =>
            place array pow k (i + 1) (buckets.set ((x.tdiv pow).tmod 10).toNat p1)

/-- The loop `while (!isEmpty(buckets[i])) array[j++] = dequeue(buckets[i]);`
of `RadixSort`, with `room` cells of the array left from `j` on: the queue,
`j` and the array after it. -/
def drainQueue : Nat → Option Queue → Nat → List Int → Option (Option Queue × Nat × List Int)
  | 0, p, j, array =>
    match isEmpty p with
    | none => none
    | some true => some (p, j, array)
    | some false => none
  | room + 1, p, j, array =>
    match isEmpty p with
    | none => none
    | some true => some (p, j, array)
    | some false =>
      match dequeue p with
      | none => none
      | some (p1, x) => drainQueue room p1 (j + 1) (array.set j x)

/-- The loop of `RadixSort` that pulls the cells out of the buckets, at bucket
`i` with `k` rounds left. -/
def drainAll : Nat → Nat → List (Option Queue) → Nat → List Int →
    Option (List (Option Queue) × List Int)
  | 0, _, buckets, _, array => some (buckets, array)
  | k + 1, i, buckets, j, array =>
    match buckets[i]? with
    | none => none
    | some p =>
      match drainQueue (array.length - j) p j array with
      | none => none
      | some (p1, j1, array1) => drainAll k (i + 1) (buckets.set i p1) j1 array1

/-- The loop `for (pow = 1; max / pow > 0; pow *= 10)` of `RadixSort`, with
`fuel` rounds at most. -/
def powLoop (n : Nat) (max : Int) :
    Nat → Int → List Int → List (Option Queue) → Option (List Int × List (Option Queue))
  | 0, _, _, _ => none
  | fuel + 1, pow, array, buckets =>
    if pow = 0 then none
    else if max.tdiv pow > 0 then
      match place array pow n 0 buckets with
      | none => none
      | some buckets1 =>
        match drainAll 10 0 buckets1 0 array with
        | none => none
        | some (buckets2, array2) => powLoop n max fuel (wrapInt (pow * 10)) array2 buckets2
    else some (array, buckets)

/-- The function `RadixSort`: the array after the call and the ten queues as
its last loop, which frees them, finds them.  The loop over `pow` gets 33
rounds: after 32 multiplications by 10 the wrapped `pow` is 0, where
`max / pow` is a division by zero. -/
def RadixSort (array : List Int) (n : Nat) : Option (List Int × List (Option Queue)) :=
  match array[0]? with
  | none => none
  | some first =>
    match findMax array (n - 1) 1 first with
    | none => none
    | some max => powLoop n max 33 1 array (List.replicate 10 initQueue)

/-- The values `l` are linked in this order from the node `p` on, at growing
addresses, the last of them in the node `last`. -/
def chain (nodes : List (Option node)) : Option Nat → List Int → Option Nat → Prop
  | p, [], _ => p = none
  | p, x :: xs, last =>
    ∃ a nx, p = some a ∧ nodes[a]? = some (some ⟨x, nx⟩) ∧ (xs = [] → last = some a) ∧
      (∀ b, nx = some b → a < b) ∧ chain nodes nx xs last

/-- The queue behind the pointer `p` holds the values `l`, the front first. -/
def Holds (p : Option Queue) (l : List Int) : Prop :=
  ∃ q, p = some q ∧ chain q.nodes q.head l q.tail

/-- The ten buckets hold the lists `f 0`, ..., `f 9`. -/
def BucketsHold (buckets : List (Option Queue)) (f : Nat → List Int) : Prop :=
  buckets.length = 10 ∧ ∀ i, i < 10 → ∃ p, buckets[i]? = some p ∧ Holds p (f i)

/-- The digit of `x` that selects its bucket in the round of `pow`. -/
def digitOf (pow x : Int) : Nat :=
  ((x.tdiv pow).tmod 10).toNat

/-- One round of the sort on lists: the cells with digit 0 in their order,
then the cells with digit 1, and so on. -/
def pass (pow : Int) (array : List Int) : List Int :=
  (List.range 10).flatMap fun d => array.filter fun x => digitOf pow x = d

/-! ### Sequences of calls on one queue -/

/-- A call on a queue: `enqueue(p, data)` or `dequeue(p)`. -/
inductive Call where
  | enqueue (data : Int)
  | dequeue
  deriving DecidableEq

/-- A finite sequence of calls on the queue behind `p`: the queue after them
and the values the calls returned, in order. -/
def callAll : Option Queue → List Call → Option (Option Queue × List Int)
  | p, [] => some (p, [])
  | p, .enqueue data :: rest =>
    match enqueue p data with
    | none => none
    | some (p1, r) =>
      match callAll p1 rest with
      | none => none
      | some (p2, rs) => some (p2, r :: rs)
  | p, .dequeue :: rest =>
    match dequeue p with
    | none => none
    | some (p1, r) =>
      match callAll p1 rest with
      | none => none
      | some (p2, rs) => some (p2, r :: rs)

/-- The first-in first-out queue of the property, a list with the oldest value
first, under one call: `enqueue` puts the value at the back and returns it;
`dequeue` takes the oldest value and returns it, and on the empty queue it
returns -1 and leaves the queue empty. -/
def fifoCall (l : List Int) : Call → List Int × Int
  | .enqueue data => (l ++ [data], data)
  | .dequeue =>
    match l with
    | [] => ([], -1)
    | x :: xs => (xs, x)

/-- The first-in first-out queue of the property under a finite sequence of
calls: the queue after them and the values returned, in order. -/
def fifoAll : List Int → List Call → List Int × List Int
  | l, [] => (l, [])
  | l, c :: rest =>
    ((fifoAll (fifoCall l c).1 rest).1, (fifoCall l c).2 :: (fifoAll (fifoCall l c).1 rest).2)

end Radix

/-! ## Theorems -/

namespace Trie

/-! ### Characters -/

theorem mem_letters_of_isAlpha (c : Char) (h : c.isAlpha = true) : c ∈ letters := by
  have hc : c = Char.ofNat c.toNat := (Char.ofNat_toNat c).symm
  have hr : (65 ≤ c.toNat ∧ c.toNat ≤ 90) ∨ (97 ≤ c.toNat ∧ c.toNat ≤ 122) := by
    simp only [Char.isAlpha, Char.isUpper, Char.isLower, Bool.or_eq_true, Bool.and_eq_true,
      decide_eq_true_eq, ge_iff_le, UInt32.le_def, BitVec.le_def] at h
    exact h
  rcases hr with ⟨h1, h2⟩ | ⟨h1, h2⟩
  · generalize c.toNat = n at hc h1 h2
    subst hc
    interval_cases n <;> decide
  · generalize c.toNat = n at hc h1 h2
    subst hc
    interval_cases n <;> decide

theorem letters_facts : ∀ c ∈ letters, c ≠ '.' ∧ 0 ≤ letterOf c ∧ (letterOf c).toNat < 26
    ∧ letterChar (letterOf c).toNat = c.toLower ∧ letterOf c.toLower = letterOf c
    ∧ c.toLower.isAlpha = true ∧ c.toLower.toLower = c.toLower := by
  decide

theorem letterChar_lt : ∀ i < 26, ∀ j < 26, i < j → letterChar i < letterChar j := by
  decide

/-! ### The node constructor -/

/-- A call of `createTrieNode` has no value for its caller. -/
theorem createTrieNode_fault : createTrieNode = .error .noReturnValue := rfl

theorem WF_zeroedNode : WF zeroedNode = true := by decide

/-- The function `buildTrie` roots the trie with the value of a
`createTrieNode` call, so it leaves defined behaviour whatever the file
holds. -/
theorem buildTrie_fault (tokens : List (List Char)) :
    buildTrie tokens = .error .noReturnValue := rfl

/-- The function `main` calls `buildTrie` first, so it leaves defined behaviour
whatever the two files hold. -/
theorem main_fault (corpus queries : List (List Char)) :
    main corpus queries = .error .noReturnValue := rfl

/-! ### Well-formedness and paths -/

theorem isAlpha_facts {c : Char} (h : c.isAlpha = true) :
    c ≠ '.' ∧ 0 ≤ letterOf c ∧ (letterOf c).toNat < 26
    ∧ letterChar (letterOf c).toNat = c.toLower ∧ letterOf c.toLower = letterOf c
    ∧ c.toLower.isAlpha = true ∧ c.toLower.toLower = c.toLower :=
  letters_facts c (mem_letters_of_isAlpha c h)

theorem WF_mk (n : Nat) (ch : List (Option TrieNode)) (sub : Option TrieNode) :
    WF (.mk n ch sub) = true ↔ ch.length = 26 ∧ WFChildren ch = true ∧ WFPtr sub = true := by
  cases sub <;> simp [WF, WFPtr, and_assoc]

theorem WFChildren_getD (ch : List (Option TrieNode)) (h : WFChildren ch = true) (i : Nat) :
    WFPtr (ch.getD i none) = true := by
  induction ch generalizing i with
  | nil => simp [WFPtr]
  | cons a rest ih =>
    cases a with
    | none =>
      simp only [WFChildren] at h
      cases i with
      | zero => simp [WFPtr]
      | succ i => simpa using ih h i
    | some t =>
      simp only [WFChildren, Bool.and_eq_true] at h
      cases i with
      | zero => simpa [WFPtr] using h.1
      | succ i => simpa using ih h.2 i

theorem WFChildren_set (ch : List (Option TrieNode)) (h : WFChildren ch = true) (i : Nat)
    (t : Option TrieNode) (ht : WFPtr t = true) : WFChildren (ch.set i t) = true := by
  induction ch generalizing i with
  | nil => simp [WFChildren]
  | cons a rest ih =>
    have hrest : WFChildren rest = true := by
      cases a with
      | none => simpa [WFChildren] using h
      | some u =>
        simp only [WFChildren, Bool.and_eq_true] at h
        exact h.2
    cases i with
    | zero =>
      cases t with
      | none => simpa [WFChildren] using hrest
      | some u => simp only [List.set_cons_zero, WFChildren, Bool.and_eq_true]; exact ⟨ht, hrest⟩
    | succ i =>
      cases a with
      | none => simpa [WFChildren] using ih hrest i
      | some u =>
        simp only [WFChildren, Bool.and_eq_true] at h
        simp only [List.set_cons_succ, WFChildren, Bool.and_eq_true]
        exact ⟨h.1, ih hrest i⟩

theorem nodeAt_none (p : List Nat) : nodeAt none p = none := by
  cases p <;> rfl

theorem countAt_none (p : List Nat) : countAt none p = 0 := by
  simp [countAt, nodeAt_none]

theorem subtrieAt_none (p : List Nat) : subtrieAt none p = none := by
  simp [subtrieAt, nodeAt_none]

theorem slot_of_isAlpha (ch : List (Option TrieNode)) (hlen : ch.length = 26) {c : Char}
    (hc : c.isAlpha = true) :
    slot ch (letterOf c) = some (ch.getD (letterOf c).toNat none) := by
  obtain ⟨-, h0, h26, -⟩ := isAlpha_facts hc
  have hlt : (letterOf c).toNat < ch.length := by omega
  simp [slot, not_lt.mpr h0, List.getD_eq_getElem?_getD, List.getElem?_eq_getElem hlt]

theorem countAt_cons (r : TrieNode) (i : Nat) (p : List Nat) :
    countAt (some r) (i :: p) = countAt (r.children.getD i none) p := rfl

theorem subtrieAt_cons (r : TrieNode) (i : Nat) (p : List Nat) :
    subtrieAt (some r) (i :: p) = subtrieAt (r.children.getD i none) p := rfl

theorem getD_set_self (ch : List (Option TrieNode)) (i : Nat) (h : i < ch.length)
    (t : Option TrieNode) : (ch.set i t).getD i none = t := by
  simp [List.getD_eq_getElem?_getD, List.getElem?_set, h]

theorem getD_set_ne (ch : List (Option TrieNode)) (i j : Nat) (h : i ≠ j)
    (t : Option TrieNode) : (ch.set i t).getD j none = ch.getD j none := by
  simp [List.getD_eq_getElem?_getD, List.getElem?_set, h]

theorem children_mk (m : Nat) (ch : List (Option TrieNode)) (s : Option TrieNode) :
    (TrieNode.mk m ch s).children = ch := rfl

theorem count_mk (m : Nat) (ch : List (Option TrieNode)) (s : Option TrieNode) :
    (TrieNode.mk m ch s).count = m := rfl

theorem subtrie_mk (m : Nat) (ch : List (Option TrieNode)) (s : Option TrieNode) :
    (TrieNode.mk m ch s).subtrie = s := rfl

/-! ### Insertion -/

theorem set_getD_same (ch : List (Option TrieNode)) (i : Nat) (t : TrieNode)
    (h : ch.getD i none = some t) : ch.set i (some t) = ch := by
  rw [List.getD_eq_getElem?_getD] at h
  apply List.ext_getElem?
  intro j
  rw [List.getElem?_set]
  by_cases hij : i = j
  · subst hij
    rw [if_pos rfl]
    cases hg : ch[i]? with
    | none => rw [hg] at h; cases h
    | some x =>
      rw [hg] at h
      have hlt : i < ch.length := by
        by_contra hge
        rw [List.getElem?_eq_none (by omega)] at hg
        cases hg
      rw [if_pos hlt]
      exact congrArg some h.symm
  · rw [if_neg hij]

/-- An insertion that needs a node the trie does not have yet: the node is to
come from `createTrieNode`, whose call has no value, so `insertString` leaves
defined behaviour. -/
theorem insertString_absent (w : List Char) (hw : Alphabetic w) :
    ∀ root, WF root = true → nodeAt (some root) (path w) = none →
      insertString (some root) w = .error .noReturnValue := by
  induction w with
  | nil =>
    intro root _ h
    simp [path, nodeAt] at h
  | cons c str ih =>
    intro root hroot h
    cases root with
    | mk n ch sub =>
      have hc : c.isAlpha = true := hw c (List.mem_cons_self _ _)
      have hstr : Alphabetic str := fun d hd => hw d (List.mem_cons_of_mem _ hd)
      obtain ⟨hdot, -⟩ := isAlpha_facts hc
      rw [WF_mk] at hroot
      obtain ⟨hlen, hch, -⟩ := hroot
      have hchild := WFChildren_getD ch hch (letterOf c).toNat
      simp only [path, List.map_cons, nodeAt, children_mk] at h
      cases hg : ch.getD (letterOf c).toNat none with
      | none =>
        simp only [insertString, hdot, if_false, children_mk, slot_of_isAlpha ch hlen hc, hg,
          createTrieNode]
      | some child =>
        rw [hg] at h hchild
        have hrec := ih hstr child hchild h
        simp only [insertString, hdot, if_false, children_mk, slot_of_isAlpha ch hlen hc, hg,
          hrec]

/-- An insertion of a word whose nodes are all in the trie: `insertString`
succeeds, keeps the trie well formed, adds one to the count at the path of the
word, and leaves every other count and every subtrie pointer as it was. -/
theorem insertString_present (w : List Char) (hw : Alphabetic w) :
    ∀ root node, WF root = true → nodeAt (some root) (path w) = some node →
      ∃ root', insertString (some root) w = .ok (some root') ∧ WF root' = true ∧
        (∀ p, countAt (some root') p = countAt (some root) p + if p = path w then 1 else 0) ∧
        (∀ p, subtrieAt (some root') p = subtrieAt (some root) p) := by
  induction w with
  | nil =>
    intro root node hroot _
    cases root with
    | mk n ch sub =>
      refine ⟨.mk (n + 1) ch sub, rfl, ?_, ?_, ?_⟩
      · rw [WF_mk] at hroot ⊢; exact hroot
      · intro p
        cases p with
        | nil => simp [countAt, nodeAt, TrieNode.count, path]
        | cons i p => simp [countAt_cons, TrieNode.children, path]
      · intro p
        cases p with
        | nil => rfl
        | cons i p => rfl
  | cons c str ih =>
    intro root node hroot hnode
    cases root with
    | mk n ch sub =>
      have hc : c.isAlpha = true := hw c (List.mem_cons_self _ _)
      have hstr : Alphabetic str := fun d hd => hw d (List.mem_cons_of_mem _ hd)
      obtain ⟨hdot, h0, h26, -⟩ := isAlpha_facts hc
      rw [WF_mk] at hroot
      obtain ⟨hlen, hch, hsub⟩ := hroot
      have hchild := WFChildren_getD ch hch (letterOf c).toNat
      simp only [path, List.map_cons, nodeAt, children_mk] at hnode
      cases hg : ch.getD (letterOf c).toNat none with
      | none => rw [hg, nodeAt_none] at hnode; cases hnode
      | some child =>
        rw [hg] at hnode hchild
        obtain ⟨n', hins, hwf', hcnt', hsb'⟩ := ih hstr child node hchild hnode
        refine ⟨.mk n (ch.set (letterOf c).toNat (some n')) sub, ?_, ?_, ?_, ?_⟩
        · simp only [insertString, hdot, if_false, children_mk, count_mk, subtrie_mk,
            slot_of_isAlpha ch hlen hc, hg, hins]
        · rw [WF_mk]
          exact ⟨by simpa using hlen, WFChildren_set ch hch _ _ hwf', hsub⟩
        · intro p
          cases p with
          | nil => simp [countAt, nodeAt, TrieNode.count, path]
          | cons i p =>
            rw [countAt_cons, countAt_cons]
            simp only [children_mk]
            by_cases hi : (letterOf c).toNat = i
            · subst hi
              rw [getD_set_self ch _ (by omega), hcnt', hg]
              simp [path]
            · rw [getD_set_ne ch _ _ hi]
              have : ¬ (i :: p = path (c :: str)) := by
                simp only [path, List.map_cons, List.cons.injEq, not_and]
                intro h; exact absurd h.symm hi
              simp [this]
        · intro p
          cases p with
          | nil => rfl
          | cons i p =>
            rw [subtrieAt_cons, subtrieAt_cons]
            simp only [children_mk]
            by_cases hi : (letterOf c).toNat = i
            · subst hi
              rw [getD_set_self ch _ (by omega), hsb', hg]
            · rw [getD_set_ne ch _ _ hi]

/-! ### Lookup -/

/-- On a well-formed trie `getNode` on an alphabetic word never leaves defined
behaviour: it returns the node at the end of the path of the word when that
node exists and has a count other than 0, and `NULL` otherwise. -/
theorem getNode_spec (w : List Char) (hw : Alphabetic w) :
    ∀ root, WF root = true → getNode root w = .ok
      (match nodeAt (some root) (path w) with
       | some n => if n.count = 0 then none else some n
       | none => none) := by
  induction w with
  | nil =>
    intro root _
    simp only [getNode, path, List.map_nil, nodeAt]
    split <;> rfl
  | cons c str ih =>
    intro root hroot
    cases root with
    | mk n ch sub =>
      have hc : c.isAlpha = true := hw c (List.mem_cons_self _ _)
      have hstr : Alphabetic str := fun d hd => hw d (List.mem_cons_of_mem _ hd)
      rw [WF_mk] at hroot
      obtain ⟨hlen, hch, -⟩ := hroot
      have hchild := WFChildren_getD ch hch (letterOf c).toNat
      simp only [getNode, TrieNode.children, slot_of_isAlpha ch hlen hc, path, List.map_cons,
        nodeAt]
      cases hg : ch.getD (letterOf c).toNat none with
      | none => simp [nodeAt_none]
      | some child =>
        rw [hg] at hchild
        simpa [path] using ih hstr child hchild

theorem getNode_eq_none (w : List Char) (hw : Alphabetic w) (root : TrieNode)
    (hroot : WF root = true) (h : countAt (some root) (path w) = 0) :
    getNode root w = .ok none := by
  rw [getNode_spec w hw root hroot]
  unfold countAt at h
  cases hn : nodeAt (some root) (path w) with
  | none => rfl
  | some n => rw [hn] at h; simp only at h; simp [h]

theorem getNode_eq_some (w : List Char) (hw : Alphabetic w) (root : TrieNode)
    (hroot : WF root = true) (h : 0 < countAt (some root) (path w)) :
    ∃ node, getNode root w = .ok (some node) ∧ nodeAt (some root) (path w) = some node ∧
      node.count = countAt (some root) (path w) := by
  rw [getNode_spec w hw root hroot]
  unfold countAt at h ⊢
  cases hn : nodeAt (some root) (path w) with
  | none => rw [hn] at h; simp at h
  | some n =>
    rw [hn] at h; simp only at h
    exact ⟨n, by simp [Nat.pos_iff_ne_zero.mp h], rfl, rfl⟩

/-! ### Case folding -/

theorem map_letterChar_path (w : List Char) (hw : Alphabetic w) :
    (path w).map letterChar = lower w := by
  induction w with
  | nil => rfl
  | cons c str ih =>
    have hc : c.isAlpha = true := hw c (List.mem_cons_self _ _)
    have hstr : Alphabetic str := fun d hd => hw d (List.mem_cons_of_mem _ hd)
    simp only [path, lower, List.map_cons, List.cons.injEq] at ih ⊢
    exact ⟨(isAlpha_facts hc).2.2.2.1, ih hstr⟩

theorem path_lower (w : List Char) (hw : Alphabetic w) : path (lower w) = path w := by
  induction w with
  | nil => rfl
  | cons c str ih =>
    have hc : c.isAlpha = true := hw c (List.mem_cons_self _ _)
    have hstr : Alphabetic str := fun d hd => hw d (List.mem_cons_of_mem _ hd)
    simp only [path, lower, List.map_cons, List.cons.injEq] at ih ⊢
    exact ⟨by rw [(isAlpha_facts hc).2.2.2.2.1], ih hstr⟩

theorem path_eq_iff (u v : List Char) (hu : Alphabetic u) (hv : Alphabetic v) :
    path u = path v ↔ lower u = lower v := by
  constructor
  · intro h
    rw [← map_letterChar_path u hu, ← map_letterChar_path v hv, h]
  · intro h
    rw [← path_lower u hu, ← path_lower v hv, h]

theorem strcasecmpEq_iff (u v : List Char) : strcasecmpEq u v = true ↔ lower u = lower v := by
  simp [strcasecmpEq, lower]

theorem strcasecmpEq_comm (u v : List Char) : strcasecmpEq u v = strcasecmpEq v u := by
  rw [Bool.eq_iff_iff, strcasecmpEq_iff, strcasecmpEq_iff]
  exact eq_comm

theorem strcasecmpEq_eq_decide (u v : List Char) (hu : Alphabetic u) (hv : Alphabetic v) :
    strcasecmpEq u v = decide (path v = path u) := by
  rw [Bool.eq_iff_iff, strcasecmpEq_iff, decide_eq_true_eq, path_eq_iff v u hv hu]
  exact eq_comm

theorem Alphabetic_lower (w : List Char) (hw : Alphabetic w) : Alphabetic (lower w) := by
  intro c hc
  simp only [lower, List.mem_map] at hc
  obtain ⟨d, hd, rfl⟩ := hc
  exact (isAlpha_facts (hw d hd)).2.2.2.2.2.1

/-- A character with the lower-case form of a letter is a letter. -/
theorem isAlpha_of_toLower_eq {c d : Char} (hc : c.isAlpha = true)
    (h : c.toLower = d.toLower) : d.isAlpha = true := by
  by_cases hd : d.toNat ≥ 65 ∧ d.toNat ≤ 90
  · simp only [Char.isAlpha, Char.isUpper, Char.isLower, Bool.or_eq_true, Bool.and_eq_true,
      decide_eq_true_eq, ge_iff_le, UInt32.le_def, BitVec.le_def]
    exact Or.inl hd
  · have : d.toLower = d := by simp only [Char.toLower, hd, if_false]
    rw [this] at h
    rw [← h]
    exact (isAlpha_facts hc).2.2.2.2.2.1

theorem Alphabetic_of_lower_eq (u v : List Char) (hu : Alphabetic u) (h : lower u = lower v) :
    Alphabetic v := by
  induction u generalizing v with
  | nil =>
    cases v with
    | nil => exact fun _ hc => absurd hc (List.not_mem_nil _)
    | cons d v => simp [lower] at h
  | cons c u ih =>
    cases v with
    | nil => simp [lower] at h
    | cons d v =>
      simp only [lower, List.map_cons, List.cons.injEq] at h
      intro x hx
      rcases List.mem_cons.mp hx with rfl | hx
      · exact isAlpha_of_toLower_eq (hu c (List.mem_cons_self _ _)) h.1
      · exact ih v (fun y hy => hu y (List.mem_cons_of_mem _ hy)) h.2 x hx

/-! ### Traversal of a well-formed trie -/

theorem countAt_getD_cons (a : Option TrieNode) (rest : List (Option TrieNode)) (k : Nat)
    (p : List Nat) :
    countAt ((a :: rest).getD (k + 1) none) p = countAt (rest.getD k none) p := by
  simp

mutual

/-- The entries `printTrieNode` prints are the paths with a positive count. -/
theorem mem_printTrieNode : ∀ (root : TrieNode) (buf u : List Char) (c : Nat),
    (u, c) ∈ printTrieNode root buf ↔
      ∃ p, u = buf ++ p.map letterChar ∧ countAt (some root) p = c ∧ 0 < c
  | .mk n ch sub, buf, u, c => by
    rw [printTrieNode, List.mem_append, mem_printTrieLoop ch buf 0 u c]
    constructor
    · rintro (h | ⟨k, p, hu, hc, hpos⟩)
      · by_cases hn : n > 0
        · simp only [hn, if_true, List.mem_singleton, Prod.mk.injEq] at h
          exact ⟨[], by simp [h.1], by simp [countAt, nodeAt, TrieNode.count, h.2], by omega⟩
        · simp [hn] at h
      · refine ⟨k :: p, ?_, ?_, hpos⟩
        · simpa using hu
        · rw [countAt_cons]; exact hc
    · rintro ⟨p, hu, hc, hpos⟩
      cases p with
      | nil =>
        left
        simp only [countAt, nodeAt, TrieNode.count] at hc
        subst hc
        simp [hpos, hu]
      | cons k p =>
        right
        exact ⟨k, p, by simpa using hu, by rw [countAt_cons] at hc; exact hc, hpos⟩

/-- The entries the loop over the slots prints. -/
theorem mem_printTrieLoop : ∀ (ch : List (Option TrieNode)) (buf : List Char) (i : Nat)
    (u : List Char) (c : Nat),
    (u, c) ∈ printTrieLoop ch buf i ↔
      ∃ k p, u = buf ++ letterChar (i + k) :: p.map letterChar ∧
        countAt (ch.getD k none) p = c ∧ 0 < c
  | [], buf, i, u, c => by
    simp only [printTrieLoop, List.not_mem_nil, false_iff, not_exists, not_and]
    intro k p _ hc hpos
    simp [countAt_none] at hc
    omega
  | none :: rest, buf, i, u, c => by
    rw [printTrieLoop, mem_printTrieLoop rest buf (i + 1) u c]
    constructor
    · rintro ⟨k, p, hu, hc, hpos⟩
      exact ⟨k + 1, p, by rw [hu]; congr 3; omega, by rw [countAt_getD_cons]; exact hc, hpos⟩
    · rintro ⟨k, p, hu, hc, hpos⟩
      cases k with
      | zero => simp [countAt_none] at hc; omega
      | succ k =>
        exact ⟨k, p, by rw [hu]; congr 3; omega, by rw [countAt_getD_cons] at hc; exact hc, hpos⟩
  | some child :: rest, buf, i, u, c => by
    rw [printTrieLoop, List.mem_append, mem_printTrieLoop rest buf (i + 1) u c,
      mem_printTrieNode child (buf ++ [Char.ofNat ('a'.toNat + i)]) u c]
    constructor
    · rintro (⟨p, hu, hc, hpos⟩ | ⟨k, p, hu, hc, hpos⟩)
      · exact ⟨0, p, by simpa [letterChar] using hu, by simpa using hc, hpos⟩
      · exact ⟨k + 1, p, by rw [hu]; congr 3; omega, by rw [countAt_getD_cons]; exact hc, hpos⟩
    · rintro ⟨k, p, hu, hc, hpos⟩
      cases k with
      | zero => left; exact ⟨p, by simpa [letterChar] using hu, by simpa using hc, hpos⟩
      | succ k =>
        right
        exact ⟨k, p, by rw [hu]; congr 3; omega, by rw [countAt_getD_cons] at hc; exact hc, hpos⟩
end

theorem lex_append_left (buf x y : List Char) (h : List.Lex (· < ·) x y) :
    List.Lex (· < ·) (buf ++ x) (buf ++ y) := by
  induction buf with
  | nil => exact h
  | cons a buf ih => exact List.Lex.cons ih

theorem lex_irrefl (x : List Char) : ¬ List.Lex (· < ·) x x := by
  induction x with
  | nil => intro h; cases h
  | cons a x ih =>
    intro h
    cases h with
    | cons h => exact ih h
    | rel h => exact absurd h (lt_irrefl a)

mutual

/-- The traversal of a well-formed node prints its words in strictly increasing
lexicographic order. -/
theorem sorted_printTrieNode : ∀ (root : TrieNode) (buf : List Char), WF root = true →
    (printTrieNode root buf).Pairwise (fun a b => List.Lex (· < ·) a.1 b.1)
  | .mk n ch sub, buf, hroot => by
    rw [WF_mk] at hroot
    rw [printTrieNode, List.pairwise_append]
    refine ⟨?_, sorted_printTrieLoop ch buf 0 hroot.2.1 (by omega), ?_⟩
    · split <;> simp
    · intro a ha b hb
      obtain ⟨k, p, hu, -, -⟩ := (mem_printTrieLoop ch buf 0 b.1 b.2).mp hb
      have hbuf : a.1 = buf := by
        by_cases hn : n > 0
        · simp only [hn, if_true, List.mem_singleton] at ha
          rw [ha]
        · simp [hn] at ha
      rw [hbuf, hu]
      simpa using lex_append_left buf [] _ List.Lex.nil

/-- The loop over well-formed slots prints in strictly increasing order. -/
theorem sorted_printTrieLoop : ∀ (ch : List (Option TrieNode)) (buf : List Char) (i : Nat),
    WFChildren ch = true → i + ch.length ≤ 26 →
    (printTrieLoop ch buf i).Pairwise (fun a b => List.Lex (· < ·) a.1 b.1)
  | [], buf, i, _, _ => by simp [printTrieLoop]
  | none :: rest, buf, i, hch, hlen => by
    rw [printTrieLoop]
    exact sorted_printTrieLoop rest buf (i + 1) (by simpa [WFChildren] using hch)
      (by simp only [List.length_cons] at hlen; omega)
  | some child :: rest, buf, i, hch, hlen => by
    simp only [WFChildren, Bool.and_eq_true] at hch
    simp only [List.length_cons] at hlen
    rw [printTrieLoop, List.pairwise_append]
    refine ⟨sorted_printTrieNode child _ hch.1,
      sorted_printTrieLoop rest buf (i + 1) hch.2 (by omega), ?_⟩
    intro a ha b hb
    obtain ⟨p, hua, -, -⟩ :=
      (mem_printTrieNode child (buf ++ [Char.ofNat ('a'.toNat + i)]) a.1 a.2).mp ha
    obtain ⟨k, q, hub, hc, hpos⟩ := (mem_printTrieLoop rest buf (i + 1) b.1 b.2).mp hb
    have hk : k < rest.length := by
      by_contra hk
      have : rest.getD k none = none := by
        simp [List.getD_eq_getElem?_getD, List.getElem?_eq_none (not_lt.mp hk)]
      rw [this, countAt_none] at hc
      omega
    rw [hua, hub, List.append_assoc]
    exact lex_append_left buf _ _
      (List.Lex.rel (letterChar_lt i (by omega) (i + 1 + k) (by omega) (by omega)))
end

/-! ### Letter case -/

/-- A character whose slot index lies inside the 26 slots is a letter. -/
theorem isAlpha_of_slot (ch : List (Option TrieNode)) (hlen : ch.length = 26) (c : Char)
    (x : Option TrieNode) (h : slot ch (letterOf c) = some x) : c.isAlpha = true := by
  unfold slot at h
  by_cases hneg : letterOf c < 0
  · rw [if_pos hneg] at h; cases h
  · rw [if_neg hneg] at h
    have hlt : (letterOf c).toNat < 26 := by
      by_contra hge
      rw [List.getElem?_eq_none (by omega)] at h
      cases h
    have ha : 'a'.toNat = 97 := rfl
    have hA : 'A'.toNat = 65 := rfl
    simp only [Char.isAlpha, Char.isUpper, Char.isLower, Bool.or_eq_true, Bool.and_eq_true,
      decide_eq_true_eq, ge_iff_le, UInt32.le_def, BitVec.le_def]
    show (65 ≤ c.toNat ∧ c.toNat ≤ 90) ∨ (97 ≤ c.toNat ∧ c.toNat ≤ 122)
    unfold letterOf at hneg hlt
    rw [ha, hA] at hneg hlt
    split at hlt <;> rename_i hcase <;> simp only [hcase, if_true, if_false] at hneg <;> omega

/-! ### Tokens that are not words -/

/-- A character that is not a letter selects no slot of a node. -/
theorem slot_of_not_isAlpha (ch : List (Option TrieNode)) (hlen : ch.length = 26) (c : Char)
    (hc : ¬ c.isAlpha = true) : slot ch (letterOf c) = none := by
  cases h : slot ch (letterOf c) with
  | none => rfl
  | some x => exact absurd (isAlpha_of_slot ch hlen c x h) hc

/-- The function `insertString` on letters whose nodes are in the trie,
followed by a character that is not a letter: a period ends the call with the
trie as it was; any other character makes the index leave the slots. -/
theorem insertString_nonword (pre : List Char) (hpre : Alphabetic pre) (c : Char)
    (hc : ¬ c.isAlpha = true) (rest : List Char) :
    ∀ root node, WF root = true → nodeAt (some root) (path pre) = some node →
      (c = '.' → insertString (some root) (pre ++ c :: rest) = .ok (some root)) ∧
      (c ≠ '.' → insertString (some root) (pre ++ c :: rest) = .error .outOfBounds) := by
  induction pre with
  | nil =>
    intro root node hroot _
    cases root with
    | mk n ch sub =>
      constructor
      · intro hdot
        simp [insertString, hdot]
      · intro hdot
        rw [WF_mk] at hroot
        simp [insertString, hdot, children_mk, slot_of_not_isAlpha ch hroot.1 c hc]
  | cons d pre ih =>
    intro root node hroot hnode
    cases root with
    | mk n ch sub =>
      have hd : d.isAlpha = true := hpre d (List.mem_cons_self _ _)
      have hpre' : Alphabetic pre := fun x hx => hpre x (List.mem_cons_of_mem _ hx)
      obtain ⟨hddot, -⟩ := isAlpha_facts hd
      rw [WF_mk] at hroot
      obtain ⟨hlen, hch, -⟩ := hroot
      have hchild := WFChildren_getD ch hch (letterOf d).toNat
      simp only [path, List.map_cons, nodeAt, children_mk] at hnode
      cases hg : ch.getD (letterOf d).toNat none with
      | none => rw [hg, nodeAt_none] at hnode; cases hnode
      | some child =>
        rw [hg] at hnode hchild
        obtain ⟨hok, herr⟩ := ih hpre' child node hchild hnode
        constructor
        · intro hdot
          simp only [List.cons_append, insertString, hddot, if_false, children_mk, count_mk,
            subtrie_mk, slot_of_isAlpha ch hlen hd, hg, List.append_eq, hok hdot,
            set_getD_same ch _ child hg]
        · intro hdot
          simp only [List.cons_append, insertString, hddot, if_false, children_mk,
            slot_of_isAlpha ch hlen hd, hg, List.append_eq, herr hdot]

/-- C12, as the claim states it, fails: on the trie of a zeroed root the token
`1`, which is not alphabetic, makes `insertString` index outside the child
slots, which is a fault. -/
theorem insertString_malformed_counterexample :
    ¬ Alphabetic "1".toList ∧
    insertString (some zeroedNode) "1".toList = .error .outOfBounds ∧
    ¬ (∃ root', insertString (some zeroedNode) "1".toList = .ok root') := by
  refine ⟨by decide, rfl, ?_⟩
  rintro ⟨root', h⟩
  have h1 : insertString (some zeroedNode) "1".toList = .error .outOfBounds := rfl
  rw [h1] at h
  cases h

/-- C12, amended: `insertString` ignores a token that is not a word only
through its period test.  A token that starts with a period leaves the trie
unchanged and does not fail.  On a trie with its 26 slots in every node that
has the nodes of the letters before the first character other than a letter:
when that character is a period the call does not fail and returns the trie
unchanged; when it is not a period the index leaves the child slots. -/
theorem insertString_malformed_token :
    (∀ (root : Option TrieNode) (rest : List Char),
      insertString root ('.' :: rest) = .ok root) ∧
    (∀ (pre : List Char) (c : Char) (rest : List Char) (root node : TrieNode),
      Alphabetic pre → ¬ c.isAlpha = true → WF root = true →
      nodeAt (some root) (path pre) = some node →
      (c = '.' → insertString (some root) (pre ++ c :: rest) = .ok (some root)) ∧
      (c ≠ '.' → insertString (some root) (pre ++ c :: rest) = .error .outOfBounds)) := by
  constructor
  · intro root rest
    cases root with
    | none => rfl
    | some r => simp [insertString]
  · intro pre c rest root node hpre hc hroot hnode
    exact insertString_nonword pre hpre c hc rest root node hroot hnode

/-- The theorem on the trie that has a node for `a`, with the tokens `a.c` and
`a1c`. -/
theorem insertString_malformed_token_witness :
    (Alphabetic "a".toList ∧ ¬ '.'.isAlpha = true ∧ ¬ '1'.isAlpha = true ∧
      WF (.mk 0 (some zeroedNode :: List.replicate 25 none) none) = true ∧
      nodeAt (some (.mk 0 (some zeroedNode :: List.replicate 25 none) none)) (path "a".toList) =
        some zeroedNode) ∧
    insertString (some (.mk 0 (some zeroedNode :: List.replicate 25 none) none))
        ("a".toList ++ '.' :: "c".toList) =
      .ok (some (.mk 0 (some zeroedNode :: List.replicate 25 none) none)) ∧
    insertString (some (.mk 0 (some zeroedNode :: List.replicate 25 none) none))
        ("a".toList ++ '1' :: "c".toList) = .error .outOfBounds :=
  ⟨⟨by decide, by decide, by decide, by decide, rfl⟩,
    (insertString_malformed_token.2 "a".toList '.' "c".toList
      (.mk 0 (some zeroedNode :: List.replicate 25 none) none) zeroedNode (by decide) (by decide)
      (by decide) rfl).1 rfl,
    (insertString_malformed_token.2 "a".toList '1' "c".toList
      (.mk 0 (some zeroedNode :: List.replicate 25 none) none) zeroedNode (by decide) (by decide)
      (by decide) rfl).2 (by decide)⟩

/-! ### The missing `return` of `createTrieNode`: what the callers do

Every theorem of this section evaluates the code at one input.  The fault is
the same in all of them: a caller uses the value of a `createTrieNode` call,
and that call has none. -/

/-- C1: the trie that the traversal is to list is not built.  On the zeroed
block that `calloc` gives as root, the insertion of the words `cat`, `Cat`,
`ant` leaves defined behaviour at the first word, which needs a node from
`createTrieNode`; and `buildTrie` on the file `cat Cat ant .` leaves it at the
root. -/
theorem traversal_trie_not_built :
    insertAll ["cat".toList, "Cat".toList, "ant".toList] (some zeroedNode) =
      .error .noReturnValue ∧
    buildTrie ["cat".toList, "Cat".toList, "ant".toList, ".".toList] =
      .error .noReturnValue :=
  ⟨rfl, rfl⟩

/-- C2: the count of an inserted word is not stored.  On the zeroed block that
`calloc` gives as root, one insertion of the word `a` leaves defined behaviour
before any count is written, and so do two insertions. -/
theorem insert_count_not_stored :
    insertString (some zeroedNode) "a".toList = .error .noReturnValue ∧
    insertAll ["a".toList, "A".toList] (some zeroedNode) = .error .noReturnValue :=
  ⟨rfl, rfl⟩

/-- C4: the lookups after the insertions are not reached.  The program on the
file `cat .` and the queries `cat`, `ca`, `cats` leaves defined behaviour
while it builds the trie, and so does the insertion of `cat` on the zeroed
block that `calloc` gives as root. -/
theorem lookup_after_insert_not_reached :
    main ["cat".toList, ".".toList] ["cat".toList, "ca".toList, "cats".toList] =
      .error .noReturnValue ∧
    insertString (some zeroedNode) "cat".toList = .error .noReturnValue :=
  ⟨rfl, rfl⟩

/-- C5: the subtries of a sentence are not created.  On the main trie that
indexes `a`, `b`, `c` with the counts 2, 1, 1, `processSentence` on the
sentence `a b a c` finds the node of `a`, and leaves defined behaviour at
`lex->subtrie = createTrieNode()` for the token `b`. -/
theorem processSentence_subtrie_not_created :
    processSentence
        (.mk 0 (some (.mk 2 (List.replicate 26 none) none) ::
          some (.mk 1 (List.replicate 26 none) none) ::
          some (.mk 1 (List.replicate 26 none) none) :: List.replicate 23 none) none)
        ["a".toList, "b".toList, "a".toList, "c".toList] =
      .error .noReturnValue :=
  rfl

/-- C6: the counts of a corpus are not built.  On the file `a b . a c .`
`buildTrie` leaves defined behaviour at the root; and on the main trie that
indexes `a`, `b`, `c` with the counts 2, 1, 1, the co-occurrence pass over the
two sentences leaves it at the first subtrie. -/
theorem corpus_counts_not_built :
    buildTrie ["a".toList, "b".toList, ".".toList, "a".toList, "c".toList, ".".toList] =
      .error .noReturnValue ∧
    processAll [["a".toList, "b".toList], ["a".toList, "c".toList]]
        (.mk 0 (some (.mk 2 (List.replicate 26 none) none) ::
          some (.mk 1 (List.replicate 26 none) none) ::
          some (.mk 1 (List.replicate 26 none) none) :: List.replicate 23 none) none) =
      .error .noReturnValue :=
  ⟨rfl, rfl⟩

/-- C7: the program on the corpus `the cat sat . the dog ran .` and the queries
`!`, `the`, `cat`, `zzz` prints no listing: it leaves defined behaviour at
`root = createTrieNode()` in `buildTrie`. -/
theorem main_two_sentences_undefined :
    main
        ["the".toList, "cat".toList, "sat".toList, ".".toList,
          "the".toList, "dog".toList, "ran".toList, ".".toList]
        ["!".toList, "the".toList, "cat".toList, "zzz".toList] =
      .error .noReturnValue :=
  rfl

/-- C8: the outcome of a query for a word without a subtrie is not reached.
The program on the file `solo . a b .` and the queries `solo`, `a` leaves
defined behaviour while it builds the trie; and on the main trie that indexes
`a` and `b`, `processSentence` on the sentence `a b` leaves it where the
subtrie of `a` is to become present. -/
theorem empty_subtrie_query_not_reached :
    main ["solo".toList, ".".toList, "a".toList, "b".toList, ".".toList]
        ["solo".toList, "a".toList] = .error .noReturnValue ∧
    processSentence
        (.mk 0 (some (.mk 1 (List.replicate 26 none) none) ::
          some (.mk 1 (List.replicate 26 none) none) :: List.replicate 24 none) none)
        ["a".toList, "b".toList] = .error .noReturnValue :=
  ⟨rfl, rfl⟩

/-- C10: neither of two insertion orders builds a trie to traverse.  On the
zeroed block that `calloc` gives as root, the words `b`, `a` and the words
`a`, `b` both leave defined behaviour at the first insertion. -/
theorem traversal_two_orders_not_built :
    insertAll ["b".toList, "a".toList] (some zeroedNode) = .error .noReturnValue ∧
    insertAll ["a".toList, "b".toList] (some zeroedNode) = .error .noReturnValue :=
  ⟨rfl, rfl⟩

/-- C11: neither of two orders of the sentences gives subtries to list.  On
the main trie that indexes `a`, `b`, `c` with the counts 1, 2, 1, the
co-occurrence pass over `a b`, `b c` and the pass over `b c`, `a b` both leave
defined behaviour in their first sentence. -/
theorem sentence_orders_not_processed :
    processAll [["a".toList, "b".toList], ["b".toList, "c".toList]]
        (.mk 0 (some (.mk 1 (List.replicate 26 none) none) ::
          some (.mk 2 (List.replicate 26 none) none) ::
          some (.mk 1 (List.replicate 26 none) none) :: List.replicate 23 none) none) =
      .error .noReturnValue ∧
    processAll [["b".toList, "c".toList], ["a".toList, "b".toList]]
        (.mk 0 (some (.mk 1 (List.replicate 26 none) none) ::
          some (.mk 2 (List.replicate 26 none) none) ::
          some (.mk 1 (List.replicate 26 none) none) :: List.replicate 23 none) none) =
      .error .noReturnValue :=
  ⟨rfl, rfl⟩

end Trie

namespace Fibonacci

/-! ### Digit lists -/

theorem valueOf_cons (d : Int) (l : List Int) : valueOf (d :: l) = d + 10 * valueOf l := rfl

theorem valueOf_append (l₁ l₂ : List Int) :
    valueOf (l₁ ++ l₂) = valueOf l₁ + 10 ^ l₁.length * valueOf l₂ := by
  induction l₁ with
  | nil => simp [valueOf]
  | cons d l ih =>
    rw [List.cons_append, valueOf_cons, valueOf_cons, ih, List.length_cons, pow_succ]
    ring

theorem valueOf_append_singleton (l : List Int) (c : Int) :
    valueOf (l ++ [c]) = valueOf l + 10 ^ l.length * c := by
  rw [valueOf_append]
  simp [valueOf]

theorem valueOf_take_succ (l : List Int) (i : Nat) :
    valueOf (l.take (i + 1)) = valueOf (l.take i) + 10 ^ i * l.getD i 0 := by
  induction l generalizing i with
  | nil => simp [valueOf]
  | cons d l ih =>
    cases i with
    | zero => simp [valueOf]
    | succ i =>
      rw [List.take_succ_cons, List.take_succ_cons, valueOf_cons, valueOf_cons, ih i]
      simp only [List.getD_cons_succ, pow_succ]
      ring

theorem valueOf_nonneg (l : List Int) (h : ∀ d ∈ l, 0 ≤ d ∧ d ≤ 9) : 0 ≤ valueOf l := by
  induction l with
  | nil => simp [valueOf]
  | cons d l ih =>
    rw [valueOf_cons]
    have := ih fun x hx => h x (List.mem_cons_of_mem _ hx)
    have := (h d (List.mem_cons_self _ _)).1
    omega

theorem valueOf_lt (l : List Int) (h : ∀ d ∈ l, 0 ≤ d ∧ d ≤ 9) :
    valueOf l < 10 ^ l.length := by
  induction l with
  | nil => simp [valueOf]
  | cons d l ih =>
    rw [valueOf_cons, List.length_cons, pow_succ]
    have := ih fun x hx => h x (List.mem_cons_of_mem _ hx)
    have := (h d (List.mem_cons_self _ _)).2
    omega

/-- Two lists of decimal digits of the same length that stand for the same
number are equal. -/
theorem eq_of_valueOf_eq (l₁ l₂ : List Int) (h₁ : ∀ d ∈ l₁, 0 ≤ d ∧ d ≤ 9)
    (h₂ : ∀ d ∈ l₂, 0 ≤ d ∧ d ≤ 9) (hlen : l₁.length = l₂.length)
    (hval : valueOf l₁ = valueOf l₂) : l₁ = l₂ := by
  induction l₁ generalizing l₂ with
  | nil =>
    cases l₂ with
    | nil => rfl
    | cons d l => simp at hlen
  | cons d₁ l₁ ih =>
    cases l₂ with
    | nil => simp at hlen
    | cons d₂ l₂ =>
      rw [valueOf_cons, valueOf_cons] at hval
      have a₁ := h₁ d₁ (List.mem_cons_self _ _)
      have a₂ := h₂ d₂ (List.mem_cons_self _ _)
      have hd : d₁ = d₂ := by omega
      have hv : valueOf l₁ = valueOf l₂ := by omega
      rw [hd, ih l₂ (fun x hx => h₁ x (List.mem_cons_of_mem _ hx))
        (fun x hx => h₂ x (List.mem_cons_of_mem _ hx)) (by simpa using hlen) hv]

/-! ### Decimal digits of a number -/

theorem valueOf_map_ofNat (L : List Nat) :
    valueOf (L.map Int.ofNat) = ((Nat.ofDigits 10 L : Nat) : Int) := by
  induction L with
  | nil => simp [valueOf, Nat.ofDigits]
  | cons d L ih =>
    rw [List.map_cons, valueOf_cons, ih, Nat.ofDigits_cons]
    push_cast
    rfl

theorem valueOf_decimalDigits (n : Nat) : valueOf (decimalDigits n) = n := by
  unfold decimalDigits
  by_cases h : n = 0
  · simp [h, valueOf]
  · rw [if_neg h, valueOf_map_ofNat, Nat.ofDigits_digits]

theorem decimalDigits_valid (n : Nat) : ∀ d ∈ decimalDigits n, 0 ≤ d ∧ d ≤ 9 := by
  unfold decimalDigits
  by_cases h : n = 0
  · simp [h]
  · rw [if_neg h]
    intro d hd
    obtain ⟨x, hx, rfl⟩ := List.mem_map.mp hd
    have := Nat.digits_lt_base (by norm_num : 1 < 10) hx
    constructor
    · exact Int.ofNat_nonneg x
    · show ((x : Nat) : Int) ≤ 9
      omega

theorem length_decimalDigits_pos (n : Nat) : 1 ≤ (decimalDigits n).length := by
  unfold decimalDigits
  by_cases h : n = 0
  · simp [h]
  · rw [if_neg h, List.length_map]
    have : Nat.digits 10 n ≠ [] := Nat.digits_ne_nil_iff_ne_zero.mpr h
    exact List.length_pos.mpr this

theorem lt_pow_length_decimalDigits (n : Nat) : n < 10 ^ (decimalDigits n).length := by
  unfold decimalDigits
  by_cases h : n = 0
  · simp [h]
  · rw [if_neg h, List.length_map]
    exact Nat.lt_base_pow_length_digits (by norm_num)

theorem pow_length_decimalDigits_le (n : Nat) (h : n ≠ 0) :
    10 ^ (decimalDigits n).length ≤ 10 * n := by
  unfold decimalDigits
  rw [if_neg h, List.length_map]
  exact Nat.base_pow_length_digits_le 10 n (by norm_num) h

theorem length_decimalDigits_zero : (decimalDigits 0).length = 1 := rfl

/-- The number of decimal digits of `n` is the `k ≥ 1` with
`n < 10 ^ k ≤ 10 * n`, and 1 for `n = 0`. -/
theorem length_decimalDigits_eq (n k : Nat) (h₁ : n < 10 ^ k) (h₂ : n ≠ 0 → 10 ^ k ≤ 10 * n)
    (h₃ : n = 0 → k = 1) : (decimalDigits n).length = k := by
  by_cases hn : n = 0
  · subst hn
    rw [h₃ rfl]
    rfl
  · have a₁ := lt_pow_length_decimalDigits n
    have a₂ := pow_length_decimalDigits_le n hn
    have b₂ := h₂ hn
    rcases Nat.lt_trichotomy (decimalDigits n).length k with hlt | heq | hgt
    · exfalso
      have : 10 ^ ((decimalDigits n).length + 1) ≤ 10 ^ k :=
        Nat.pow_le_pow_right (by norm_num) hlt
      rw [pow_succ] at this
      omega
    · exact heq
    · exfalso
      have : 10 ^ (k + 1) ≤ 10 ^ (decimalDigits n).length :=
        Nat.pow_le_pow_right (by norm_num) hgt
      rw [pow_succ] at this
      omega

theorem length_decimalDigits_mono (a b : Nat) (h : a ≤ b) :
    (decimalDigits a).length ≤ (decimalDigits b).length := by
  by_cases ha : a = 0
  · subst ha
    exact length_decimalDigits_pos b
  · have hb : b ≠ 0 := by omega
    unfold decimalDigits
    rw [if_neg ha, if_neg hb, List.length_map, List.length_map]
    exact Nat.le_digits_len_le 10 a b h

/-! ### The addition loop -/

theorem getD_mid (out : List Int) (c : Int) (rest : List Int) :
    (out ++ c :: rest).getD out.length 0 = c := by
  rw [List.getD_append_right _ _ _ _ (le_refl _)]
  simp

theorem getD_mid_nil (out : List Int) (c : Int) :
    (out ++ [c]).getD out.length 0 = c :=
  getD_mid out c []

theorem set_mid (out : List Int) (c v : Int) (rest : List Int) :
    (out ++ c :: rest).set out.length v = out ++ v :: rest := by
  rw [List.set_append]
  simp

theorem getD_mid_succ (out : List Int) (c d : Int) (rest : List Int) :
    (out ++ c :: d :: rest).getD (out.length + 1) 0 = d := by
  rw [List.getD_append_right _ _ _ _ (by omega)]
  simp

theorem set_mid_succ (out : List Int) (c d v : Int) (rest : List Int) :
    (out ++ c :: d :: rest).set (out.length + 1) v = out ++ c :: v :: rest := by
  rw [List.set_append]
  simp

/-- The digit of `q` the loop adds at cell `i`, as the step of the value of
`q` over its first `min i q.length` cells. -/
theorem valueOf_take_min_succ (l : List Int) (n i : Nat) :
    valueOf (l.take (min (i + 1) n))
      = valueOf (l.take (min i n)) + 10 ^ i * (if i < n then l.getD i 0 else 0) := by
  by_cases h : i < n
  · rw [if_pos h, Nat.min_eq_left (by omega : i + 1 ≤ n), Nat.min_eq_left (by omega : i ≤ n),
      valueOf_take_succ]
  · rw [if_neg h, Nat.min_eq_right (by omega : n ≤ i + 1), Nat.min_eq_right (by omega : n ≤ i)]
    simp

/-- The addition loop on decimal digits: started on the digits `out` computed
so far, the carry `c` and zeros, it ends with `p.length` decimal digits and a
last carry that together stand for the sum of the two numbers. -/
theorem addLoop_spec (p q : HugeInteger)
    (hp : ∀ i < p.length, 0 ≤ p.digits.getD i 0 ∧ p.digits.getD i 0 ≤ 9)
    (hq : ∀ i < q.length, 0 ≤ q.digits.getD i 0 ∧ q.digits.getD i 0 ≤ 9) :
    ∀ (k : Nat) (out : List Int) (c : Int), out.length + k = p.length →
      (∀ d ∈ out, 0 ≤ d ∧ d ≤ 9) → (c = 0 ∨ c = 1) →
      valueOf out + 10 ^ out.length * c
        = valueOf (p.digits.take out.length) + valueOf (q.digits.take (min out.length q.length)) →
      ∃ out' c', addLoop p q k out.length (out ++ c :: List.replicate k 0) = out' ++ [c'] ∧
        out'.length = p.length ∧ (∀ d ∈ out', 0 ≤ d ∧ d ≤ 9) ∧ (c' = 0 ∨ c' = 1) ∧
        valueOf out' + 10 ^ p.length * c'
          = valueOf (p.digits.take p.length) + valueOf (q.digits.take (min p.length q.length)) := by
  intro k
  induction k with
  | zero =>
    intro out c hlen hout hc hval
    simp only [Nat.add_zero] at hlen
    refine ⟨out, c, by simp [addLoop], hlen, hout, hc, ?_⟩
    rw [← hlen]
    exact hval
  | succ k ih =>
    intro out c hlen hout hc hval
    have hi : out.length < p.length := by omega
    have hpd := hp out.length hi
    -- the operand added at this cell
    set op : Int := if out.length < q.length then
      p.digits.getD out.length 0 + q.digits.getD out.length 0 else p.digits.getD out.length 0
      with hop
    have hopq : op = p.digits.getD out.length 0 +
        (if out.length < q.length then q.digits.getD out.length 0 else 0) := by
      rw [hop]
      split <;> simp
    have hqd : 0 ≤ (if out.length < q.length then q.digits.getD out.length 0 else 0) ∧
        (if out.length < q.length then q.digits.getD out.length 0 else 0) ≤ 9 := by
      split
      · exact hq out.length (by assumption)
      · exact ⟨le_refl 0, by norm_num⟩
    have hop0 : 0 ≤ op := by omega
    have hop18 : op ≤ 18 := by omega
    have hstep : valueOf (p.digits.take (out.length + 1))
        + valueOf (q.digits.take (min (out.length + 1) q.length))
        = valueOf out + 10 ^ out.length * (c + op) := by
      rw [valueOf_take_succ, valueOf_take_min_succ, hopq]
      have := hval
      ring_nf
      ring_nf at this
      linarith
    have hunfold : addLoop p q (k + 1) out.length (out ++ c :: List.replicate (k + 1) 0)
        = addLoop p q k (out.length + 1)
            (if c + op > 9 then out ++ (c + op).tmod 10 :: 1 :: List.replicate k 0
             else out ++ (c + op) :: 0 :: List.replicate k 0) := by
      rw [addLoop]
      simp only [getD_mid, set_mid, List.replicate_succ, getD_mid_succ, set_mid_succ, ← hop]
      split <;> simp
    rw [hunfold]
    by_cases hcarry : c + op > 9
    · rw [if_pos hcarry]
      have hmod : (c + op).tmod 10 = c + op - 10 := by
        rw [Int.tmod_eq_emod (by omega) (by norm_num)]
        omega
      have := ih (out ++ [(c + op).tmod 10]) 1 (by simp; omega)
        (by
          intro d hd
          rcases List.mem_append.mp hd with h | h
          · exact hout d h
          · rw [List.mem_singleton.mp h, hmod]; omega)
        (Or.inr rfl)
        (by
          rw [List.length_append, List.length_singleton, valueOf_append_singleton, hstep, hmod,
            pow_succ]
          ring)
      simpa [List.append_assoc] using this
    · rw [if_neg hcarry]
      have := ih (out ++ [c + op]) 0 (by simp; omega)
        (by
          intro d hd
          rcases List.mem_append.mp hd with h | h
          · exact hout d h
          · rw [List.mem_singleton.mp h]; omega)
        (Or.inl rfl)
        (by
          rw [List.length_append, List.length_singleton, valueOf_append_singleton, hstep]
          ring)
      simpa [List.append_assoc] using this

/-! ### `hugeAdd` -/

theorem Decimal.getD {h : HugeInteger} (hd : Decimal h) :
    ∀ i < h.length, 0 ≤ h.digits.getD i 0 ∧ h.digits.getD i 0 ≤ 9 := by
  intro i hi
  apply hd.2
  have hlt : i < h.digits.length := lt_of_lt_of_le hi hd.1
  rw [List.getD_eq_getElem _ _ hlt, List.mem_take_iff_getElem]
  exact ⟨i, by rw [Nat.min_eq_left hd.1]; exact hi, rfl⟩

/-- The array and the length `hugeAdd` returns, for a first operand at least as
long as the second: `p.length` decimal digits and a carry cell that together
stand for the sum, and the carry cell counted in the length only when it is not
0 and `p.length < q.length + 3`. -/
theorem hugeAdd_of_le (p q : HugeInteger) (hp : Decimal p) (hq : Decimal q)
    (hle : q.length ≤ p.length) :
    ∃ out c, addLoop p q p.length 0 (List.replicate (p.length + 1) 0) = out ++ [c] ∧
      out.length = p.length ∧ (∀ d ∈ out, 0 ≤ d ∧ d ≤ 9) ∧ (c = 0 ∨ c = 1) ∧
      valueOf out + 10 ^ p.length * c = value p + value q := by
  have := addLoop_spec p q hp.getD hq.getD p.length [] 0 (by simp) (by simp) (Or.inl rfl)
    (by simp [valueOf])
  obtain ⟨out, c, h1, h2, h3, h4, h5⟩ := this
  refine ⟨out, c, ?_, h2, h3, h4, ?_⟩
  · simpa [List.replicate_succ] using h1
  · rw [h5, Nat.min_eq_right hle]
    rfl

theorem hugeAdd_unfold (p q : HugeInteger) :
    hugeAdd p q =
      if p.length < q.length then
        { digits := addLoop q p q.length 0 (List.replicate (q.length + 1) 0),
          length := if q.length < p.length + 3 ∧
              (addLoop q p q.length 0 (List.replicate (q.length + 1) 0)).getD q.length 0 ≠ 0
            then q.length + 1 else q.length }
      else
        { digits := addLoop p q p.length 0 (List.replicate (p.length + 1) 0),
          length := if p.length < q.length + 3 ∧
              (addLoop p q p.length 0 (List.replicate (p.length + 1) 0)).getD p.length 0 ≠ 0
            then p.length + 1 else p.length } := by
  unfold hugeAdd
  split <;> rfl

/-- The result of `hugeAdd` on decimal digits: the array is `m` decimal digits
and a carry cell, `m` the larger of the two lengths, that together stand for
the sum; the length is `m + 1` when the carry is not 0 and `m` is less than the
smaller length plus 3, and `m` otherwise. -/
theorem hugeAdd_spec (p q : HugeInteger) (hp : Decimal p) (hq : Decimal q) :
    ∃ out c, (hugeAdd p q).digits = out ++ [c] ∧
      out.length = max p.length q.length ∧ (∀ d ∈ out, 0 ≤ d ∧ d ≤ 9) ∧ (c = 0 ∨ c = 1) ∧
      valueOf out + 10 ^ (max p.length q.length) * c = value p + value q ∧
      (hugeAdd p q).length =
        if max p.length q.length < min p.length q.length + 3 ∧ c ≠ 0
        then max p.length q.length + 1 else max p.length q.length := by
  rw [hugeAdd_unfold]
  by_cases hlt : p.length < q.length
  · obtain ⟨out, c, h1, h2, h3, h4, h5⟩ := hugeAdd_of_le q p hq hp (by omega)
    rw [if_pos hlt]
    refine ⟨out, c, h1, ?_, h3, h4, ?_, ?_⟩
    · rw [h2, Nat.max_eq_right (by omega)]
    · rw [Nat.max_eq_right (by omega), h5, add_comm]
    · have hg : (out ++ [c]).getD q.length 0 = c := by rw [← h2]; exact getD_mid_nil out c
      show (if q.length < p.length + 3 ∧
        (addLoop q p q.length 0 (List.replicate (q.length + 1) 0)).getD q.length 0 ≠ 0
        then q.length + 1 else q.length) = _
      rw [h1, hg, Nat.max_eq_right (by omega : p.length ≤ q.length),
        Nat.min_eq_left (by omega : p.length ≤ q.length)]
  · obtain ⟨out, c, h1, h2, h3, h4, h5⟩ := hugeAdd_of_le p q hp hq (by omega)
    rw [if_neg hlt]
    refine ⟨out, c, h1, ?_, h3, h4, ?_, ?_⟩
    · rw [h2, Nat.max_eq_left (by omega)]
    · rw [Nat.max_eq_left (by omega), h5]
    · have hg : (out ++ [c]).getD p.length 0 = c := by rw [← h2]; exact getD_mid_nil out c
      show (if p.length < q.length + 3 ∧
        (addLoop p q p.length 0 (List.replicate (p.length + 1) 0)).getD p.length 0 ≠ 0
        then p.length + 1 else p.length) = _
      rw [h1, hg, Nat.max_eq_left (by omega : q.length ≤ p.length),
        Nat.min_eq_right (by omega : q.length ≤ p.length)]

/-- When the lengths of two operands with decimal digits differ by less than 3,
`hugeAdd` returns decimal digits that stand for the sum. -/
theorem hugeAdd_value (p q : HugeInteger) (hp : Decimal p) (hq : Decimal q)
    (hlen : max p.length q.length < min p.length q.length + 3) :
    Decimal (hugeAdd p q) ∧ value (hugeAdd p q) = value p + value q := by
  obtain ⟨out, c, h1, h2, h3, h4, h5, h6⟩ := hugeAdd_spec p q hp hq
  by_cases hc : c = 0
  · have hl : (hugeAdd p q).length = out.length := by
      rw [h6, if_neg (by simp [hc]), h2]
    have htake : (hugeAdd p q).digits.take (hugeAdd p q).length = out := by
      rw [hl, h1]
      simp
    refine ⟨⟨?_, ?_⟩, ?_⟩
    · rw [hl, h1]; simp
    · rw [htake]; exact h3
    · unfold value at h5 ⊢
      rw [htake, ← h5, hc]
      simp
  · have hc1 : c = 1 := by rcases h4 with h | h; exact absurd h hc; exact h
    have hl : (hugeAdd p q).length = out.length + 1 := by
      rw [h6, if_pos ⟨hlen, hc⟩, h2]
    have htake : (hugeAdd p q).digits.take (hugeAdd p q).length = out ++ [c] := by
      rw [hl, h1]
      simp
    refine ⟨⟨?_, ?_⟩, ?_⟩
    · rw [hl, h1]; simp
    · rw [htake]
      intro d hd
      rcases List.mem_append.mp hd with h | h
      · exact h3 d h
      · rw [List.mem_singleton.mp h, hc1]; omega
    · unfold value at h5 ⊢
      rw [htake, valueOf_append_singleton, h2, h5]

/-! ### `fib` -/

theorem length_decimalDigits_le (n k : Nat) (hk : 1 ≤ k) (h : n < 10 ^ k) :
    (decimalDigits n).length ≤ k := by
  by_cases hn : n = 0
  · subst hn
    exact hk
  · by_contra hgt
    have h1 : 10 ^ (k + 1) ≤ 10 ^ (decimalDigits n).length :=
      Nat.pow_le_pow_right (by norm_num) (by omega)
    have h2 := pow_length_decimalDigits_le n hn
    rw [pow_succ] at h1
    omega

theorem length_of_take_eq (h : HugeInteger) (n : Nat) (h₁ : h.length ≤ h.digits.length)
    (h₂ : h.digits.take h.length = decimalDigits n) :
    h.length = (decimalDigits n).length := by
  rw [← h₂, List.length_take, Nat.min_eq_left h₁]

theorem Decimal_of_take_eq (h : HugeInteger) (n : Nat) (h₁ : h.length ≤ h.digits.length)
    (h₂ : h.digits.take h.length = decimalDigits n) : Decimal h ∧ value h = n := by
  refine ⟨⟨h₁, ?_⟩, ?_⟩
  · rw [h₂]
    exact decimalDigits_valid n
  · unfold value
    rw [h₂, valueOf_decimalDigits]

/-- On the decimal digits of two numbers whose digit counts differ by less
than 3, `hugeAdd` returns the decimal digits of the sum. -/
theorem hugeAdd_decimalDigits (p q : HugeInteger) (a b : Nat)
    (hp₁ : p.length ≤ p.digits.length) (hp₂ : p.digits.take p.length = decimalDigits a)
    (hq₁ : q.length ≤ q.digits.length) (hq₂ : q.digits.take q.length = decimalDigits b)
    (hlen : max p.length q.length < min p.length q.length + 3) :
    (hugeAdd p q).length ≤ (hugeAdd p q).digits.length ∧
      (hugeAdd p q).digits.take (hugeAdd p q).length = decimalDigits (a + b) := by
  obtain ⟨hpd, hpv⟩ := Decimal_of_take_eq p a hp₁ hp₂
  obtain ⟨hqd, hqv⟩ := Decimal_of_take_eq q b hq₁ hq₂
  have hpl := length_of_take_eq p a hp₁ hp₂
  have hql := length_of_take_eq q b hq₁ hq₂
  obtain ⟨hrd, hrv⟩ := hugeAdd_value p q hpd hqd hlen
  obtain ⟨out, c, h1, h2, h3, h4, h5, h6⟩ := hugeAdd_spec p q hpd hqd
  refine ⟨hrd.1, ?_⟩
  -- the larger operand
  have hm : max p.length q.length = (decimalDigits (max a b)).length := by
    rw [hpl, hql]
    rcases Nat.le_total a b with hab | hab
    · rw [Nat.max_eq_right hab, Nat.max_eq_right (length_decimalDigits_mono a b hab)]
    · rw [Nat.max_eq_left hab, Nat.max_eq_left (length_decimalDigits_mono b a hab)]
  have hx₁ := lt_pow_length_decimalDigits (max a b)
  have hx₂ := pow_length_decimalDigits_le (max a b)
  rw [← hm] at hx₁ hx₂
  have hxa : max a b ≤ a + b := by omega
  have hxb : a + b ≤ 2 * max a b := by omega
  have hout := valueOf_lt out h3
  have hout0 := valueOf_nonneg out h3
  rw [h2] at hout
  rw [hpv, hqv] at h5
  have hpow : (0 : Int) < 10 ^ max p.length q.length := by positivity
  have hx₁' : ((max a b : Nat) : Int) < 10 ^ max p.length q.length := by exact_mod_cast hx₁
  have hxa' : ((max a b : Nat) : Int) ≤ (a : Int) + b := by exact_mod_cast hxa
  have hxb' : (a : Int) + b ≤ 2 * ((max a b : Nat) : Int) := by exact_mod_cast hxb
  have hklen : (decimalDigits (a + b)).length = (hugeAdd p q).length := by
    rw [h6]
    by_cases hc : c = 0
    · rw [if_neg (by simp [hc])]
      rw [hc] at h5
      apply length_decimalDigits_eq
      · have : ((a + b : Nat) : Int) < 10 ^ max p.length q.length := by
          push_cast; omega
        exact_mod_cast this
      · intro hne
        have hxne : max a b ≠ 0 := by omega
        have := hx₂ hxne
        omega
      · intro h0
        have hx0 : max a b = 0 := by omega
        rw [hm, hx0]
        rfl
    · have hc1 : c = 1 := by rcases h4 with h | h; exact absurd h hc; exact h
      rw [if_pos ⟨hlen, hc⟩]
      rw [hc1] at h5
      have hge : (10 : Int) ^ max p.length q.length ≤ (a : Int) + b := by omega
      have hge' : 10 ^ max p.length q.length ≤ a + b := by exact_mod_cast hge
      apply length_decimalDigits_eq
      · rw [pow_succ]
        omega
      · intro _
        rw [pow_succ]
        omega
      · intro h0
        have : 0 < 10 ^ max p.length q.length := by positivity
        omega
  apply eq_of_valueOf_eq _ _ hrd.2 (decimalDigits_valid _)
  · rw [List.length_take, Nat.min_eq_left hrd.1, hklen]
  · have : valueOf ((hugeAdd p q).digits.take (hugeAdd p q).length) = value (hugeAdd p q) := rfl
    rw [this, hrv, hpv, hqv, valueOf_decimalDigits]
    push_cast
    rfl

theorem fib_succ_lt_pow (j : Nat) :
    Nat.fib (j + 1) < 10 ^ ((decimalDigits (Nat.fib j)).length + 1) := by
  cases j with
  | zero => decide
  | succ i =>
    have h1 : Nat.fib (i + 1 + 1) = Nat.fib i + Nat.fib (i + 1) := Nat.fib_add_two
    have h2 : Nat.fib i ≤ Nat.fib (i + 1) := Nat.fib_le_fib_succ
    have h3 := lt_pow_length_decimalDigits (Nat.fib (i + 1))
    rw [pow_succ]
    omega

theorem fib_lengths (j : Nat) :
    max (decimalDigits (Nat.fib j)).length (decimalDigits (Nat.fib (j + 1))).length
      < min (decimalDigits (Nat.fib j)).length (decimalDigits (Nat.fib (j + 1))).length + 3 := by
  have h1 := length_decimalDigits_mono _ _ (Nat.fib_le_fib_succ (n := j))
  have h2 := length_decimalDigits_le (Nat.fib (j + 1)) _ (by omega) (fib_succ_lt_pow j)
  rw [Nat.max_eq_right h1, Nat.min_eq_left h1]
  omega

/-- The loop of `fib`, started on the digits of `F(j)` and `F(j + 1)`, ends
after `k` rounds with the digits of `F(j + 1 + k)`. -/
theorem fibLoop_spec : ∀ (k j : Nat) (p q : HugeInteger),
    p.length ≤ p.digits.length → p.digits.take p.length = decimalDigits (Nat.fib j) →
    q.length ≤ q.digits.length → q.digits.take q.length = decimalDigits (Nat.fib (j + 1)) →
    (fibLoop k p q).length ≤ (fibLoop k p q).digits.length ∧
      (fibLoop k p q).digits.take (fibLoop k p q).length = decimalDigits (Nat.fib (j + 1 + k)) := by
  intro k
  induction k with
  | zero =>
    intro j p q _ _ hq₁ hq₂
    exact ⟨hq₁, hq₂⟩
  | succ k ih =>
    intro j p q hp₁ hp₂ hq₁ hq₂
    have hlen : max p.length q.length < min p.length q.length + 3 := by
      rw [length_of_take_eq p _ hp₁ hp₂, length_of_take_eq q _ hq₁ hq₂]
      exact fib_lengths j
    obtain ⟨hr₁, hr₂⟩ := hugeAdd_decimalDigits p q _ _ hp₁ hp₂ hq₁ hq₂ hlen
    rw [← Nat.fib_add_two] at hr₂
    have := ih (j + 1) q (hugeAdd p q) hq₁ hq₂ hr₁ hr₂
    rw [show j + 1 + (k + 1) = j + 1 + 1 + k by omega]
    exact this

/-- C13: for every `n ≥ 0` the digits of `fib n` over its length, least
significant first, are the decimal digits of the Fibonacci number `F(n)`
(`F(0) = 0`, `F(1) = 1`, `F(n + 2) = F(n) + F(n + 1)`), so `fib n` stands for
`F(n)`, whatever its size. -/
theorem fib_digits (n : Nat) :
    (fib n).length ≤ (fib n).digits.length ∧
      (fib n).digits.take (fib n).length = decimalDigits (Nat.fib n) ∧
      value (fib n) = Nat.fib n := by
  have key : (fib n).length ≤ (fib n).digits.length ∧
      (fib n).digits.take (fib n).length = decimalDigits (Nat.fib n) := by
    unfold fib
    by_cases h0 : n = 0
    · subst h0
      exact ⟨by decide, by decide⟩
    · by_cases h1 : n = 1
      · subst h1
        refine ⟨by decide, ?_⟩
        simp [decimalDigits, parseInt, countDigits, storeDigits]
      · rw [if_neg h0, if_neg h1]
        have := fibLoop_spec (n - 1) 0 (parseInt 0) (parseInt 1) (by decide) (by decide)
          (by decide) (by simp [decimalDigits, parseInt, countDigits, storeDigits])
        rw [show 0 + 1 + (n - 1) = n by omega] at this
        exact this
  exact ⟨key.1, key.2, (Decimal_of_take_eq _ _ key.1 key.2).2⟩

/-- C14 fails on the code: `hugeAdd` on 9999 and 1, both as `parseInt` returns
them, gives the cells 0, 0, 0, 0, 1 with length 4, which stands for 0 and not
for 10000: the carry cell is left out of the length because the length 4 of the
longer operand is not less than the length 1 of the shorter one plus 3. -/
theorem hugeAdd_carry_dropped :
    Decimal (parseInt 9999) ∧ Decimal (parseInt 1) ∧
    hugeAdd (parseInt 9999) (parseInt 1) = { digits := [0, 0, 0, 0, 1], length := 4 } ∧
    value (hugeAdd (parseInt 9999) (parseInt 1)) = 0 ∧
    value (parseInt 9999) + value (parseInt 1) = 10000 := by
  decide

/-- C15 fails on the code: on the digits of the string `00000000001`, which
stand for 1, `toUnsignedInt` returns `NULL`, as the length 11 is above the
length 10 of `UINT_MAX`. -/
theorem toUnsignedInt_leading_zeros :
    Decimal (parseString "00000000001".toList) ∧
    value (parseString "00000000001".toList) = 1 ∧
    toUnsignedInt (parseString "00000000001".toList) = none := by
  decide

end Fibonacci

namespace QuadraticSorts

/-! ### Arrays: swaps, permutations, order -/

theorem length_swap (a : List Int) (i j : Nat) : (swap a i j).length = a.length := by
  simp [swap]

theorem getD_swap (a : List Int) (i j k : Nat) (hi : i < a.length) (hj : j < a.length) :
    (swap a i j).getD k 0
      = if k = j then a.getD i 0 else if k = i then a.getD j 0 else a.getD k 0 := by
  unfold swap
  simp only [List.getD_eq_getElem?_getD, List.getElem?_set, List.length_set]
  by_cases h1 : k = j
  · subst h1
    simp [hj]
  · have h1' : ¬ j = k := fun e => h1 e.symm
    by_cases h2 : k = i
    · subst h2
      simp [h1, h1', hi]
    · have h2' : ¬ i = k := fun e => h2 e.symm
      simp [h1, h1', h2, h2']

theorem count_set_add (l : List Int) (i : Nat) (hi : i < l.length) (v b : Int) :
    (l.set i v).count b + (if l.getD i 0 = b then 1 else 0)
      = l.count b + (if v = b then 1 else 0) := by
  rw [List.count_set v b l i hi, List.getD_eq_getElem _ _ hi]
  have hmem : l[i] ∈ l := List.getElem_mem hi
  simp only [beq_iff_eq]
  by_cases h : l[i] = b
  · have hpos : 0 < l.count b := List.count_pos_iff.mpr (h ▸ hmem)
    rw [if_pos h]
    omega
  · rw [if_neg h]
    omega

theorem swap_perm (a : List Int) (i j : Nat) (hi : i < a.length) (hj : j < a.length) :
    (swap a i j).Perm a := by
  rw [List.perm_iff_count]
  intro b
  unfold swap
  have h1 := count_set_add a i hi (a.getD j 0) b
  have h2 := count_set_add (a.set i (a.getD j 0)) j (by simpa using hj) (a.getD i 0) b
  have h3 : (a.set i (a.getD j 0)).getD j 0 = a.getD j 0 := by
    simp only [List.getD_eq_getElem?_getD, List.getElem?_set]
    by_cases h : i = j
    · subst h; simp [hi]
    · simp [h]
  rw [h3] at h2
  have e1 : (if a.getD i 0 = b then 1 else 0 : Nat) = (if a.getD i 0 = b then 1 else 0) := rfl
  simp only [beq_iff_eq] at h1 h2 ⊢
  omega

/-- An array in which every earlier cell is at most every later cell is sorted. -/
theorem sorted_of_getD (a : List Int)
    (h : ∀ x y, x < y → y < a.length → a.getD x 0 ≤ a.getD y 0) : a.Sorted (· ≤ ·) := by
  unfold List.Sorted
  rw [List.pairwise_iff_getElem]
  intro i j hi hj hij
  have := h i j hij hj
  rwa [List.getD_eq_getElem _ _ hi, List.getD_eq_getElem _ _ hj] at this

theorem getD_of_sorted (a : List Int) (h : a.Sorted (· ≤ ·)) :
    ∀ x y, x < y → y < a.length → a.getD x 0 ≤ a.getD y 0 := by
  intro x y hxy hy
  unfold List.Sorted at h
  rw [List.pairwise_iff_getElem] at h
  have := h x y (by omega) hy hxy
  rwa [List.getD_eq_getElem _ _ (by omega : x < a.length), List.getD_eq_getElem _ _ hy]

/-- Cells that are in order two by two are in order. -/
theorem le_of_adjacent (a : List Int) (lo hi : Nat)
    (h : ∀ t, lo ≤ t → t < hi → a.getD t 0 ≤ a.getD (t + 1) 0) :
    ∀ x y, lo ≤ x → x ≤ y → y ≤ hi → a.getD x 0 ≤ a.getD y 0 := by
  intro x y hx hxy hy
  induction y with
  | zero =>
    have : x = 0 := by omega
    subst this
    exact le_refl _
  | succ y ih =>
    by_cases hxe : x = y + 1
    · subst hxe
      exact le_refl _
    · exact le_trans (ih (by omega) (by omega)) (h y (by omega) (by omega))

theorem set_getD_self (a : List Int) (i : Nat) : a.set i (a.getD i 0) = a := by
  apply List.ext_getElem?
  intro k
  simp only [List.getElem?_set, List.getD_eq_getElem?_getD]
  by_cases h : i = k
  · subst h
    by_cases hi : i < a.length
    · simp [hi, List.getElem?_eq_getElem hi]
    · simp [hi, List.getElem?_eq_none (not_lt.mp hi)]
  · simp [h]

/-! ### `unsorted` -/

theorem unsortedLoop_eq_zero (a : List Int) :
    ∀ k i, (∀ t, i ≤ t → t < i + k → a.getD t 0 ≤ a.getD (t + 1) 0) →
      unsortedLoop a k i = 0 := by
  intro k
  induction k with
  | zero => intro i _; rfl
  | succ k ih =>
    intro i h
    have h0 := h i (le_refl _) (by omega)
    rw [unsortedLoop, if_neg (by omega)]
    exact ih (i + 1) fun t ht1 ht2 => h t (by omega) (by omega)

/-- On a sorted array `unsorted` returns 0. -/
theorem unsorted_of_sorted (a : List Int) (h : a.Sorted (· ≤ ·)) :
    unsorted a a.length = 0 := by
  unfold unsorted
  apply unsortedLoop_eq_zero
  intro t _ ht
  exact getD_of_sorted a h t (t + 1) (by omega) (by omega)

/-! ### Selection sort -/

/-- The inner loop of `selection_sort`: started on the index of a least cell of
`[lo, j)`, it returns the index of a least cell of `[lo, j + k)`. -/
theorem selectMin_spec (a : List Int) (lo : Nat) :
    ∀ k j m, lo ≤ m → m < j → (∀ t, lo ≤ t → t < j → a.getD m 0 ≤ a.getD t 0) →
      lo ≤ selectMin a k j m ∧ selectMin a k j m < j + k ∧
        ∀ t, lo ≤ t → t < j + k → a.getD (selectMin a k j m) 0 ≤ a.getD t 0 := by
  intro k
  induction k with
  | zero =>
    intro j m h1 h2 h3
    exact ⟨h1, by simpa [selectMin] using h2, fun t ht1 ht2 => h3 t ht1 (by omega)⟩
  | succ k ih =>
    intro j m h1 h2 h3
    rw [selectMin]
    by_cases hlt : a.getD j 0 < a.getD m 0
    · rw [if_pos hlt]
      have := ih (j + 1) j (by omega) (by omega) (by
        intro t ht1 ht2
        by_cases htj : t = j
        · subst htj; exact le_refl _
        · exact le_trans (le_of_lt hlt) (h3 t ht1 (by omega)))
      exact ⟨this.1, by omega, fun t ht1 ht2 => this.2.2 t ht1 (by omega)⟩
    · rw [if_neg hlt]
      have := ih (j + 1) m h1 (by omega) (by
        intro t ht1 ht2
        by_cases htj : t = j
        · subst htj; exact not_lt.mp hlt
        · exact h3 t ht1 (by omega))
      exact ⟨this.1, by omega, fun t ht1 ht2 => this.2.2 t ht1 (by omega)⟩

/-- The outer loop of `selection_sort`: when the cells before `i` are in their
final place (each at most every later cell), so are all cells at the end, and
the array is a permutation of the one at the start. -/
theorem selectionOuter_spec (n : Nat) :
    ∀ k i (a : List Int), i + k + 1 = n → a.length = n →
      (∀ x y, x < i → x < y → y < n → a.getD x 0 ≤ a.getD y 0) →
      (selectionOuter n k i a).Perm a ∧
        ∀ x y, x < y → y < n →
          (selectionOuter n k i a).getD x 0 ≤ (selectionOuter n k i a).getD y 0 := by
  intro k
  induction k with
  | zero =>
    intro i a hik hlen hinv
    refine ⟨List.Perm.refl _, ?_⟩
    intro x y hxy hy
    exact hinv x y (by omega) hxy hy
  | succ k ih =>
    intro i a hik hlen hinv
    rw [selectionOuter]
    obtain ⟨hm1, hm2, hm3⟩ := selectMin_spec a i (n - (i + 1)) (i + 1) i (le_refl _) (by omega)
      (by
        intro t ht1 ht2
        have : t = i := by omega
        subst this
        exact le_refl _)
    have hmn : selectMin a (n - (i + 1)) (i + 1) i < a.length := by omega
    have hin : i < a.length := by omega
    have hrange : i + 1 + (n - (i + 1)) = n := by omega
    rw [hrange] at hm3
    have hperm := swap_perm a _ i hmn hin
    obtain ⟨hp, hs⟩ := ih (i + 1) (swap a (selectMin a (n - (i + 1)) (i + 1) i) i) (by omega)
      (by rw [length_swap]; exact hlen)
      (by
        intro x y hx hxy hy
        rw [getD_swap a _ i x hmn hin, getD_swap a _ i y hmn hin]
        by_cases hxi : x = i
        · subst hxi
          rw [if_pos rfl, if_neg (by omega)]
          split
          · exact hm3 x (le_refl _) (by omega)
          · exact hm3 y (by omega) hy
        · have hxlt : x < i := by omega
          rw [if_neg hxi, if_neg (by omega)]
          split
          · exact hinv x _ hxlt (by omega) (by omega)
          · split
            · exact hinv x i hxlt (by omega) (by omega)
            · exact hinv x y hxlt hxy hy)
    exact ⟨hp.trans hperm, hs⟩

/-- C20: for every `int` array, `selection_sort` on the array and its length
leaves the array in non-decreasing order and a permutation of the input. -/
theorem selection_sort_sorted (array : List Int) :
    (selection_sort array array.length).Sorted (· ≤ ·) ∧
      (selection_sort array array.length).Perm array := by
  unfold selection_sort
  by_cases hn : array.length = 0
  · have : array = [] := List.length_eq_zero.mp hn
    subst this
    exact ⟨by simp [selectionOuter], List.Perm.refl _⟩
  · obtain ⟨hp, hs⟩ := selectionOuter_spec array.length (array.length - 1) 0 array (by omega) rfl
      (by intro x y hx; omega)
    refine ⟨sorted_of_getD _ ?_, hp⟩
    intro x y hxy hy
    rw [hp.length_eq] at hy
    exact hs x y hxy hy

/-! ### Insertion sort -/

/-- The `while` loop of `insertion_sort` for the cell `i` with value `val`:
when the cells `[0, i]` other than `gap` are in order, `gap` holds `val` and
the cells after `gap` are at least `val`, the loop ends with the cells `[0, i]`
in order, a permutation of the array, and `val` in the final `gap`. -/
theorem insertInner_spec (i : Nat) (val : Int) :
    ∀ g (a : List Int), g ≤ i → i < a.length →
      (∀ x y, x < y → y ≤ i → x ≠ g → y ≠ g → a.getD x 0 ≤ a.getD y 0) →
      (∀ y, g < y → y ≤ i → a.getD g 0 ≤ a.getD y 0) → a.getD g 0 = val →
      (insertInner g a).1.Perm a ∧
        (∀ x y, x < y → y ≤ i → (insertInner g a).1.getD x 0 ≤ (insertInner g a).1.getD y 0) ∧
        (insertInner g a).1.getD (insertInner g a).2 0 = val := by
  intro g
  induction g with
  | zero =>
    intro a _ _ k1 k2 k3
    refine ⟨List.Perm.refl _, ?_, k3⟩
    intro x y hxy hy
    by_cases hx : x = 0
    · subst hx
      exact k2 y hxy hy
    · exact k1 x y hxy hy hx (by omega)
  | succ g ih =>
    intro a hg hi k1 k2 k3
    rw [insertInner]
    by_cases hlt : a.getD (g + 1) 0 < a.getD g 0
    · rw [if_pos hlt]
      have hg1 : g + 1 < a.length := by omega
      have hg0 : g < a.length := by omega
      obtain ⟨hp, hs, hv⟩ := ih (swap a (g + 1) g) (by omega)
        (by rw [length_swap]; exact hi)
        (by
          intro x y hxy hy hxg hyg
          rw [getD_swap a _ _ x hg1 hg0, getD_swap a _ _ y hg1 hg0, if_neg hxg, if_neg hyg]
          by_cases hx : x = g + 1
          · rw [if_pos hx, if_neg (by omega)]
            exact k1 g y (by omega) hy (by omega) (by omega)
          · rw [if_neg hx]
            by_cases hy1 : y = g + 1
            · rw [if_pos hy1]
              exact k1 x g (by omega) (by omega) hx (by omega)
            · rw [if_neg hy1]
              exact k1 x y hxy hy hx hy1)
        (by
          intro y hgy hy
          rw [getD_swap a _ _ g hg1 hg0, getD_swap a _ _ y hg1 hg0, if_pos rfl,
            if_neg (by omega)]
          by_cases hy1 : y = g + 1
          · rw [if_pos hy1]
            exact le_of_lt hlt
          · rw [if_neg hy1]
            exact k2 y (by omega) hy)
        (by rw [getD_swap a _ _ g hg1 hg0, if_pos rfl]; exact k3)
      exact ⟨hp.trans (swap_perm a _ _ hg1 hg0), hs, hv⟩
    · rw [if_neg hlt]
      refine ⟨List.Perm.refl _, ?_, k3⟩
      intro x y hxy hy
      by_cases hx : x = g + 1
      · subst hx
        exact k2 y hxy hy
      · by_cases hy1 : y = g + 1
        · subst hy1
          by_cases hxg : x = g
          · subst hxg
            exact not_lt.mp hlt
          · exact le_trans (k1 x g (by omega) (by omega) hx (by omega)) (not_lt.mp hlt)
        · exact k1 x y hxy hy hx hy1

/-- The outer loop of `insertion_sort`: when the cells before `i` are in
order, the whole array is in order at the end and a permutation of the array
at the start. -/
theorem insertionOuter_spec :
    ∀ k i (a : List Int), i + k = a.length →
      (∀ x y, x < y → y < i → a.getD x 0 ≤ a.getD y 0) →
      (insertionOuter k i a).Perm a ∧
        ∀ x y, x < y → y < a.length →
          (insertionOuter k i a).getD x 0 ≤ (insertionOuter k i a).getD y 0 := by
  intro k
  induction k with
  | zero =>
    intro i a hik hinv
    refine ⟨List.Perm.refl _, ?_⟩
    intro x y hxy hy
    exact hinv x y hxy (by omega)
  | succ k ih =>
    intro i a hik hinv
    rw [insertionOuter]
    obtain ⟨hp, hs, hv⟩ := insertInner_spec i (a.getD i 0) i a (le_refl _) (by omega)
      (by
        intro x y hxy hy _ hyi
        exact hinv x y hxy (by omega))
      (by intro y h1 h2; omega) rfl
    rw [← hv, set_getD_self]
    obtain ⟨hp', hs'⟩ := ih (i + 1) (insertInner i a).1 (by rw [hp.length_eq]; omega)
      (by
        intro x y hxy hy
        exact hs x y hxy (by omega))
    refine ⟨hp'.trans hp, ?_⟩
    intro x y hxy hy
    exact hs' x y hxy (by rw [hp.length_eq]; exact hy)

/-- C18: for every `int` array, after `insertion_sort` on the array and its
length the check `unsorted` returns 0, the array is in non-decreasing order,
and it is a permutation of the input. -/
theorem insertion_sort_sorted (array : List Int) :
    unsorted (insertion_sort array array.length) array.length = 0 ∧
      (insertion_sort array array.length).Sorted (· ≤ ·) ∧
      (insertion_sort array array.length).Perm array := by
  have key : (insertion_sort array array.length).Sorted (· ≤ ·) ∧
      (insertion_sort array array.length).Perm array := by
    unfold insertion_sort
    by_cases hn : array.length = 0
    · have : array = [] := List.length_eq_zero.mp hn
      subst this
      exact ⟨by simp [insertionOuter], List.Perm.refl _⟩
    · obtain ⟨hp, hs⟩ := insertionOuter_spec (array.length - 1) 1 array (by omega)
        (by intro x y hxy hy; omega)
      refine ⟨sorted_of_getD _ ?_, hp⟩
      intro x y hxy hy
      rw [hp.length_eq] at hy
      exact hs x y hxy hy
  refine ⟨?_, key.1, key.2⟩
  have := unsorted_of_sorted _ key.1
  rwa [key.2.length_eq] at this

/-! ### Bubble sort -/

theorem bubbleInner_true : ∀ k j (a : List Int), (bubbleInner k j a true).2 = true := by
  intro k
  induction k with
  | zero => intro j a; rfl
  | succ k ih =>
    intro j a
    rw [bubbleInner]
    split
    · exact ih _ _
    · exact ih _ _

/-- One pass of `bubble_sort` up to the cell `u`: when cell `j` is a largest
cell of `[0, j]`, the pass ends with a largest cell of `[0, u]` in cell `u`; it
permutes the cells `[0, u]` and leaves the cells after `u`; and when it ends
with `swapped` 0 it has changed nothing and the cells `[0, u]` are in order. -/
theorem bubbleInner_spec (u : Nat) :
    ∀ k j (a : List Int) (sw : Bool), j + k = u → u < a.length →
      (∀ t, t ≤ j → a.getD t 0 ≤ a.getD j 0) →
      (sw = false → ∀ t, t < j → a.getD t 0 ≤ a.getD (t + 1) 0) →
      (bubbleInner k j a sw).1.Perm a ∧
        (∀ t, t ≤ u → (bubbleInner k j a sw).1.getD t 0 ≤ (bubbleInner k j a sw).1.getD u 0) ∧
        (∀ t, u < t → (bubbleInner k j a sw).1.getD t 0 = a.getD t 0) ∧
        (∀ x, x ≤ u → ∃ x', x' ≤ u ∧ (bubbleInner k j a sw).1.getD x 0 = a.getD x' 0) ∧
        ((bubbleInner k j a sw).2 = false →
          (bubbleInner k j a sw).1 = a ∧ ∀ t, t < u → a.getD t 0 ≤ a.getD (t + 1) 0) := by
  intro k
  induction k with
  | zero =>
    intro j a sw hj hu h1 h2
    have hju : j = u := by omega
    subst hju
    exact ⟨List.Perm.refl _, h1, fun _ _ => rfl, fun x hx => ⟨x, hx, rfl⟩,
      fun hs => ⟨rfl, h2 hs⟩⟩
  | succ k ih =>
    intro j a sw hj hu h1 h2
    have hj0 : j < a.length := by omega
    have hj1 : j + 1 < a.length := by omega
    rw [bubbleInner]
    by_cases hgt : a.getD j 0 > a.getD (j + 1) 0
    · rw [if_pos hgt]
      obtain ⟨hp, hmax, hrest, hfrom, -⟩ := ih (j + 1) (swap a j (j + 1)) true (by omega)
        (by rw [length_swap]; exact hu)
        (by
          intro t ht
          rw [getD_swap a _ _ t hj0 hj1, getD_swap a _ _ (j + 1) hj0 hj1, if_pos rfl]
          by_cases ht1 : t = j + 1
          · rw [if_pos ht1]
          · rw [if_neg ht1]
            by_cases ht0 : t = j
            · rw [if_pos ht0]
              exact le_of_lt hgt
            · rw [if_neg ht0]
              exact h1 t (by omega))
        (by intro h; cases h)
      refine ⟨hp.trans (swap_perm a _ _ hj0 hj1), hmax, ?_, ?_, ?_⟩
      · intro t ht
        rw [hrest t ht, getD_swap a _ _ t hj0 hj1, if_neg (by omega), if_neg (by omega)]
      · intro x hx
        obtain ⟨x', hx', he⟩ := hfrom x hx
        rw [he, getD_swap a _ _ x' hj0 hj1]
        by_cases h1' : x' = j + 1
        · exact ⟨j, by omega, by rw [if_pos h1']⟩
        · by_cases h0' : x' = j
          · exact ⟨j + 1, by omega, by rw [if_neg h1', if_pos h0']⟩
          · exact ⟨x', hx', by rw [if_neg h1', if_neg h0']⟩
      · intro hs
        rw [bubbleInner_true] at hs
        cases hs
    · rw [if_neg hgt]
      exact ih (j + 1) a sw (by omega) hu
        (by
          intro t ht
          by_cases ht1 : t = j + 1
          · subst ht1
            exact le_refl _
          · exact le_trans (h1 t (by omega)) (not_lt.mp hgt))
        (by
          intro hs t ht
          by_cases htj : t = j
          · subst htj
            exact not_lt.mp hgt
          · exact h2 hs t (by omega))

/-- The outer loop of `bubble_sort`: when the last `i` cells are in their
final place (each at least every earlier cell), and the array is in order if
`swapped` is 0, the loop ends with the array in order and a permutation of the
array at the start. -/
theorem bubbleOuter_spec (n : Nat) :
    ∀ k i (a : List Int) (sw : Bool), i + k = n → a.length = n →
      (∀ x y, x < y → y < n → n ≤ y + i → a.getD x 0 ≤ a.getD y 0) →
      (sw = false → ∀ x y, x < y → y < n → a.getD x 0 ≤ a.getD y 0) →
      (bubbleOuter n k i a sw).Perm a ∧
        ∀ x y, x < y → y < n →
          (bubbleOuter n k i a sw).getD x 0 ≤ (bubbleOuter n k i a sw).getD y 0 := by
  intro k
  induction k with
  | zero =>
    intro i a sw hik hlen hJ _
    refine ⟨List.Perm.refl _, ?_⟩
    intro x y hxy hy
    exact hJ x y hxy hy (by omega)
  | succ k ih =>
    intro i a sw hik hlen hJ hsw
    rw [bubbleOuter]
    cases sw with
    | false =>
      simp only [Bool.false_eq_true, if_false]
      exact ⟨List.Perm.refl _, hsw rfl⟩
    | true =>
      simp only [if_true]
      obtain ⟨hp, hmax, hrest, hfrom, hnosw⟩ := bubbleInner_spec (n - i - 1) (n - i - 1) 0 a false
        (by omega) (by omega)
        (by
          intro t ht
          have : t = 0 := by omega
          subst this
          exact le_refl _)
        (by intro _ t ht; omega)
      obtain ⟨hp', hs'⟩ := ih (i + 1) (bubbleInner (n - i - 1) 0 a false).1
        (bubbleInner (n - i - 1) 0 a false).2 (by omega) (by rw [hp.length_eq]; exact hlen)
        (by
          intro x y hxy hy hge
          by_cases hyu : y = n - i - 1
          · subst hyu
            exact hmax x (by omega)
          · have hyu' : n - i - 1 < y := by omega
            rw [hrest y hyu']
            by_cases hxu : x ≤ n - i - 1
            · obtain ⟨x', hx', he⟩ := hfrom x hxu
              rw [he]
              exact hJ x' y (by omega) hy (by omega)
            · rw [hrest x (by omega)]
              exact hJ x y hxy hy (by omega))
        (by
          intro hs x y hxy hy
          obtain ⟨he, hadj⟩ := hnosw hs
          rw [he]
          by_cases hyu : y ≤ n - i - 1
          · exact le_of_adjacent a 0 (n - i - 1) (fun t _ ht => hadj t ht) x y (by omega)
              (by omega) hyu
          · exact hJ x y hxy hy (by omega))
      exact ⟨hp'.trans hp, hs'⟩

/-- C19: for every `int` array, `bubble_sort` on the array and its length
leaves the array in non-decreasing order and a permutation of the input; the
proof covers the exit of the loop on a pass without a swap. -/
theorem bubble_sort_sorted (array : List Int) :
    (bubble_sort array array.length).Sorted (· ≤ ·) ∧
      (bubble_sort array array.length).Perm array := by
  unfold bubble_sort
  obtain ⟨hp, hs⟩ := bubbleOuter_spec array.length array.length 0 array true (by omega) rfl
    (by intro x y _ hy hge; omega) (by intro h; cases h)
  refine ⟨sorted_of_getD _ ?_, hp⟩
  intro x y hxy hy
  rw [hp.length_eq] at hy
  exact hs x y hxy hy

end QuadraticSorts

namespace Merge

/-! ### Segments -/

theorem segment_cons (a : List Int) (i hi : Nat) (hi1 : i ≤ hi) (hhi : hi < a.length) :
    ∃ x, a[i]? = some x ∧ segment a i hi = x :: segment a (i + 1) hi := by
  have hlt : i < a.length := by omega
  refine ⟨a[i], List.getElem?_eq_getElem hlt, ?_⟩
  unfold segment
  rw [List.drop_eq_getElem_cons hlt]
  have he : hi + 1 - i = (hi + 1 - (i + 1)) + 1 := by omega
  rw [he, List.take_succ_cons]

theorem segment_nil (a : List Int) (i hi : Nat) (h : hi < i) : segment a i hi = [] := by
  unfold segment
  have he : hi + 1 - i = 0 := by omega
  rw [he, List.take_zero]

theorem length_segment (a : List Int) (lo hi : Nat) (h : hi < a.length) (hlo : lo ≤ hi + 1) :
    (segment a lo hi).length = hi + 1 - lo := by
  unfold segment
  rw [List.length_take, List.length_drop]
  omega

theorem segment_append (a : List Int) (lo mid hi : Nat) (h1 : lo ≤ mid + 1) (h2 : mid ≤ hi) :
    segment a lo mid ++ segment a (mid + 1) hi = segment a lo hi := by
  unfold segment
  have he : hi + 1 - lo = (mid + 1 - lo) + (hi + 1 - (mid + 1)) := by omega
  rw [he, List.take_add, List.drop_drop]
  have he2 : lo + (mid + 1 - lo) = mid + 1 := by omega
  rw [he2]

/-- The segment `[lo..hi]` is read off the first `hi + 1` cells. -/
theorem segment_of_take (a b : List Int) (lo hi : Nat) (hlo : lo ≤ hi + 1)
    (h : a.take (hi + 1) = b.take (hi + 1)) : segment a lo hi = segment b lo hi := by
  unfold segment
  rw [List.take_drop, List.take_drop]
  have he : lo + (hi + 1 - lo) = hi + 1 := by omega
  rw [he, h]

/-- The segment `[lo..hi]` is read off the cells from `lo` on. -/
theorem segment_of_drop (a b : List Int) (lo hi : Nat) (h : a.drop lo = b.drop lo) :
    segment a lo hi = segment b lo hi := by
  unfold segment
  rw [h]

/-! ### The merge loop -/

theorem mergeLoop_spec (a : List Int) (mid hi : Nat) (hhi : hi < a.length) :
    ∀ room i j aux, i ≤ mid + 1 → mid < j → j ≤ hi + 1 →
      room = (mid + 1 - i) + (hi + 1 - j) →
      (segment a i mid).Sorted (· ≤ ·) → (segment a j hi).Sorted (· ≤ ·) →
      aux.Sorted (· ≤ ·) →
      (∀ x ∈ aux, ∀ y ∈ segment a i mid ++ segment a j hi, x ≤ y) →
      ∃ out, mergeLoop a mid hi room i j aux = some out ∧ out.Sorted (· ≤ ·) ∧
        out.Perm (aux ++ (segment a i mid ++ segment a j hi)) := by
  intro room
  induction room with
  | zero =>
    intro i j aux hi1 hj1 hj2 hroom _ _ hs _
    have hc : ¬ (i ≤ mid ∨ j ≤ hi) := by omega
    refine ⟨aux, ?_, hs, ?_⟩
    · rw [mergeLoop, if_neg hc]
    · rw [segment_nil a i mid (by omega), segment_nil a j hi (by omega)]
      simp
  | succ room ih =>
    intro i j aux hi1 hj1 hj2 hroom hs1 hs2 hs hle
    have hc : i ≤ mid ∨ j ≤ hi := by omega
    rw [mergeLoop, if_pos hc]
    have sorted_snoc : ∀ x : Int, (∀ y ∈ aux, y ≤ x) → (aux ++ [x]).Sorted (· ≤ ·) := by
      intro x hx
      refine List.pairwise_append.mpr ⟨hs, List.pairwise_singleton _ _, ?_⟩
      intro y hy z hz
      rw [List.mem_singleton] at hz
      rw [hz]
      exact hx y hy
    by_cases him : i > mid
    · -- the left run is used up
      have hL1 : segment a i mid = [] := segment_nil a i mid (by omega)
      obtain ⟨b, hb, hL2⟩ := segment_cons a j hi (by omega) hhi
      have ht : takesRight a mid hi i j = some true := by
        unfold takesRight
        rw [if_pos him]
      rw [ht]
      simp only [hb]
      rw [hL1, hL2] at hle
      rw [hL2] at hs2
      obtain ⟨out, ho, hso, hpo⟩ := ih i (j + 1) (aux ++ [b]) hi1 (by omega) (by omega)
        (by omega) hs1 (List.Sorted.of_cons hs2)
        (sorted_snoc b (fun y hy => hle y hy b (by simp)))
        (by
          intro x hx y hy
          rw [hL1, List.nil_append] at hy
          rcases List.mem_append.mp hx with hx | hx
          · exact hle x hx y (by simp [hy])
          · rw [List.mem_singleton] at hx
            rw [hx]
            exact List.rel_of_sorted_cons hs2 y hy)
      refine ⟨out, ho, hso, ?_⟩
      rw [hL1, hL2]
      rw [hL1] at hpo
      simpa using hpo
    · have him' : i ≤ mid := by omega
      obtain ⟨c, hcq, hL1⟩ := segment_cons a i mid him' (by omega)
      by_cases hjh : j ≤ hi
      · obtain ⟨b, hb, hL2⟩ := segment_cons a j hi hjh hhi
        by_cases hbc : b < c
        · -- the right cell is the smaller one
          have ht : takesRight a mid hi i j = some true := by
            unfold takesRight
            rw [if_neg him, if_pos hjh, hb, hcq]
            simp [hbc]
          rw [ht]
          simp only [hb]
          have hle2 := hle
          rw [hL1, hL2] at hle2
          have hs2c := hs2
          rw [hL2] at hs2c
          have hs1c := hs1
          rw [hL1] at hs1c
          obtain ⟨out, ho, hso, hpo⟩ := ih i (j + 1) (aux ++ [b]) hi1 (by omega) (by omega)
            (by omega) hs1 (List.Sorted.of_cons hs2c)
            (sorted_snoc b (fun y hy => hle2 y hy b (by simp)))
            (by
              intro x hx y hy
              rcases List.mem_append.mp hx with hx | hx
              · apply hle x hx y
                rw [hL2]
                rcases List.mem_append.mp hy with hy | hy
                · exact List.mem_append_left _ hy
                · exact List.mem_append_right _ (List.mem_cons_of_mem _ hy)
              · rw [List.mem_singleton] at hx
                rw [hx]
                rcases List.mem_append.mp hy with hy | hy
                · rw [hL1] at hy
                  rcases List.mem_cons.mp hy with hy | hy
                  · rw [hy]
                    exact le_of_lt hbc
                  · exact le_trans (le_of_lt hbc) (List.rel_of_sorted_cons hs1c y hy)
                · exact List.rel_of_sorted_cons hs2c y hy)
          refine ⟨out, ho, hso, hpo.trans ?_⟩
          rw [hL2, List.append_assoc]
          refine List.Perm.append_left aux ?_
          rw [List.singleton_append]
          exact (@List.perm_middle _ b (segment a i mid) (segment a (j + 1) hi)).symm
        · -- the left cell is taken
          have ht : takesRight a mid hi i j = some false := by
            unfold takesRight
            rw [if_neg him, if_pos hjh, hb, hcq]
            simp [hbc]
          rw [ht]
          simp only [hcq]
          have hle2 := hle
          rw [hL1, hL2] at hle2
          have hs2c := hs2
          rw [hL2] at hs2c
          have hs1c := hs1
          rw [hL1] at hs1c
          obtain ⟨out, ho, hso, hpo⟩ := ih (i + 1) j (aux ++ [c]) (by omega) hj1 hj2
            (by omega) (List.Sorted.of_cons hs1c) hs2
            (sorted_snoc c (fun y hy => hle2 y hy c (by simp)))
            (by
              intro x hx y hy
              rcases List.mem_append.mp hx with hx | hx
              · apply hle x hx y
                rw [hL1]
                rcases List.mem_append.mp hy with hy | hy
                · exact List.mem_append_left _ (List.mem_cons_of_mem _ hy)
                · exact List.mem_append_right _ hy
              · rw [List.mem_singleton] at hx
                rw [hx]
                rcases List.mem_append.mp hy with hy | hy
                · exact List.rel_of_sorted_cons hs1c y hy
                · rw [hL2] at hy
                  rcases List.mem_cons.mp hy with hy | hy
                  · rw [hy]
                    exact not_lt.mp hbc
                  · exact le_trans (not_lt.mp hbc) (List.rel_of_sorted_cons hs2c y hy))
          refine ⟨out, ho, hso, hpo.trans ?_⟩
          rw [hL1]
          simp
      · -- the right run is used up
        have hL2 : segment a j hi = [] := segment_nil a j hi (by omega)
        have ht : takesRight a mid hi i j = some false := by
          unfold takesRight
          rw [if_neg him, if_neg hjh]
        rw [ht]
        simp only [hcq]
        have hle2 := hle
        rw [hL1, hL2] at hle2
        have hs1c := hs1
        rw [hL1] at hs1c
        obtain ⟨out, ho, hso, hpo⟩ := ih (i + 1) j (aux ++ [c]) (by omega) hj1 hj2
          (by omega) (List.Sorted.of_cons hs1c) hs2
          (sorted_snoc c (fun y hy => hle2 y hy c (by simp)))
          (by
            intro x hx y hy
            rw [hL2, List.append_nil] at hy
            rcases List.mem_append.mp hx with hx | hx
            · exact hle2 x hx y (by simp [hy])
            · rw [List.mem_singleton] at hx
              rw [hx]
              exact List.rel_of_sorted_cons hs1c y hy)
        refine ⟨out, ho, hso, hpo.trans ?_⟩
        rw [hL1]
        simp

/-! ### Copying back -/

theorem copyBack_spec (aux : List Int) (lo : Nat) :
    ∀ n i (array : List Int), lo ≤ i → i - lo + n = aux.length → i + n ≤ array.length →
      copyBack aux lo n i array =
        some (array.take i ++ aux.drop (i - lo) ++ array.drop (i + n)) := by
  intro n
  induction n with
  | zero =>
    intro i array _ haux _
    rw [copyBack, List.drop_of_length_le (by omega), List.append_nil, Nat.add_zero,
      List.take_append_drop]
  | succ n ih =>
    intro i array hlo haux hlen
    have hx : i - lo < aux.length := by omega
    have hi : i < array.length := by omega
    rw [copyBack, List.getElem?_eq_getElem hx]
    simp only []
    rw [if_pos hi, ih (i + 1) _ (by omega) (by omega) (by rw [List.length_set]; omega)]
    have h1 : (array.set i aux[i - lo]).take (i + 1) = array.take i ++ [aux[i - lo]] := by
      rw [List.set_eq_take_append_cons_drop, if_pos hi]
      have hl : (List.take i array ++ [aux[i - lo]]).length = i + 1 := by
        rw [List.length_append, List.length_take, List.length_singleton]
        omega
      have he : List.take i array ++ aux[i - lo] :: List.drop (i + 1) array =
          (List.take i array ++ [aux[i - lo]]) ++ List.drop (i + 1) array := by simp
      rw [he, List.take_left' hl]
    have h2 : (array.set i aux[i - lo]).drop (i + 1 + n) = array.drop (i + (n + 1)) := by
      rw [List.drop_set_of_lt _ _ (by omega)]
      congr 1
      omega
    have h3 : aux.drop (i - lo) = aux[i - lo] :: aux.drop (i + 1 - lo) := by
      rw [List.drop_eq_getElem_cons hx]
      congr 2
      omega
    rw [h1, h2, h3]
    simp

/-! ### The recursion -/

/-- The function `MergeSort` on a segment inside the array: it returns, the
cells outside the segment are as before, and the segment is in order and a
permutation of what it held. -/
theorem MergeSort_spec :
    ∀ d (array : List Int) (lo hi : Nat), hi - lo ≤ d → lo ≤ hi → hi < array.length →
      ∃ r, MergeSort array lo hi = some r ∧ r.length = array.length ∧
        r.take lo = array.take lo ∧ r.drop (hi + 1) = array.drop (hi + 1) ∧
        (segment r lo hi).Sorted (· ≤ ·) ∧ (segment r lo hi).Perm (segment array lo hi) := by
  intro d
  induction d with
  | zero =>
    intro array lo hi hd hlo hhi
    have he : lo = hi := by omega
    subst he
    refine ⟨array, ?_, rfl, rfl, rfl, ?_, List.Perm.refl _⟩
    · rw [MergeSort, if_pos (le_refl _)]
    · obtain ⟨x, -, hx⟩ := segment_cons array lo lo (le_refl _) hhi
      rw [hx, segment_nil array (lo + 1) lo (by omega)]
      exact List.sorted_singleton x
  | succ d ih =>
    intro array lo hi hd hlo hhi
    by_cases hge : lo ≥ hi
    · have he : lo = hi := by omega
      subst he
      refine ⟨array, ?_, rfl, rfl, rfl, ?_, List.Perm.refl _⟩
      · rw [MergeSort, if_pos (le_refl _)]
      · obtain ⟨x, -, hx⟩ := segment_cons array lo lo (le_refl _) hhi
        rw [hx, segment_nil array (lo + 1) lo (by omega)]
        exact List.sorted_singleton x
    · rw [MergeSort, if_neg hge]
      generalize hmid : lo + (hi - lo) / 2 = mid
      have hm1 : lo ≤ mid := by omega
      have hm2 : mid < hi := by omega
      obtain ⟨a1, e1, len1, tk1, dr1, so1, pm1⟩ := ih array lo mid (by omega) hm1 (by omega)
      obtain ⟨a2, e2, len2, tk2, dr2, so2, pm2⟩ := ih a1 (mid + 1) hi (by omega) (by omega)
        (by omega)
      rw [e1]
      simp only []
      rw [e2]
      simp only []
      -- the two runs of `a2`
      have hrun1 : segment a2 lo mid = segment a1 lo mid :=
        segment_of_take a2 a1 lo mid (by omega) tk2
      have hrun2 : segment a1 (mid + 1) hi = segment array (mid + 1) hi :=
        segment_of_drop a1 array (mid + 1) hi dr1
      obtain ⟨out, eo, so, po⟩ := mergeLoop_spec a2 mid hi (by omega) (hi - lo + 1) lo (mid + 1)
        [] (by omega) (by omega) (by omega) (by omega) (by rw [hrun1]; exact so1) so2
        List.sorted_nil (by intro x hx; cases hx)
      rw [eo]
      simp only []
      rw [List.nil_append, segment_append a2 lo mid hi (by omega) (by omega)] at po
      have hlo2 : (segment a2 lo hi).length = hi + 1 - lo :=
        length_segment a2 lo hi (by omega) (by omega)
      have hol : out.length = hi + 1 - lo := by rw [po.length_eq, hlo2]
      rw [copyBack_spec out lo (hi + 1 - lo) lo a2 (le_refl _) (by omega) (by omega)]
      have htl : (List.take lo a2).length = lo := by
        rw [List.length_take]
        omega
      have hlen : (List.take lo a2 ++ out).length = hi + 1 := by
        rw [List.length_append, htl, hol]
        omega
      have he : lo + (hi + 1 - lo) = hi + 1 := by omega
      have hta2 : a2.take lo = array.take lo := by
        have h := congrArg (List.take lo) tk2
        rw [List.take_take, List.take_take, Nat.min_eq_left (by omega)] at h
        rw [h, tk1]
      have hda2 : a2.drop (hi + 1) = array.drop (hi + 1) := by
        rw [dr2]
        have h := congrArg (List.drop (hi - mid)) dr1
        rw [List.drop_drop, List.drop_drop] at h
        have he2 : mid + 1 + (hi - mid) = hi + 1 := by omega
        rw [he2] at h
        exact h
      have hseg : segment (List.take lo a2 ++ out ++ List.drop (hi + 1) a2) lo hi = out := by
        unfold segment
        rw [List.append_assoc, List.drop_left' htl, ← hol, List.take_left]
      refine ⟨_, rfl, ?_, ?_, ?_, ?_, ?_⟩
      · rw [Nat.sub_self, List.drop_zero, he, List.length_append, hlen, List.length_drop]
        omega
      · rw [Nat.sub_self, List.drop_zero, he, List.append_assoc, List.take_left' htl, hta2]
      · rw [Nat.sub_self, List.drop_zero, he, List.drop_left' hlen, hda2]
      · rw [Nat.sub_self, List.drop_zero, he, hseg]
        exact so
      · rw [Nat.sub_self, List.drop_zero, he, hseg]
        refine po.trans ?_
        rw [← segment_append a2 lo mid hi (by omega) (by omega),
          ← segment_append array lo mid hi (by omega) (by omega), hrun1]
        exact List.Perm.append pm1 (pm2.trans (by rw [hrun2]))

/-- C16: for every `int` array and indices `lo <= hi` inside it, the call
`MergeSort(array, lo, hi)` returns (the recursion ends and no access is out of
bounds); afterwards the array has its length, the cells before `lo` and after
`hi` are unchanged, and the segment `array[lo..hi]` is in non-decreasing order
and a permutation of what it held. -/
theorem MergeSort_sorted (array : List Int) (lo hi : Nat) (hlo : lo ≤ hi)
    (hhi : hi < array.length) :
    ∃ r, MergeSort array lo hi = some r ∧ r.length = array.length ∧
      r.take lo = array.take lo ∧ r.drop (hi + 1) = array.drop (hi + 1) ∧
      (segment r lo hi).Sorted (· ≤ ·) ∧ (segment r lo hi).Perm (segment array lo hi) :=
  MergeSort_spec (hi - lo) array lo hi (le_refl _) hlo hhi

/-- The theorem on the segment `[1..5]` of the array `5 2 9 1 5 6 0`. -/
theorem MergeSort_sorted_witness :
    (1 ≤ 5 ∧ 5 < [(5 : Int), 2, 9, 1, 5, 6, 0].length) ∧
      ∃ r, MergeSort [5, 2, 9, 1, 5, 6, 0] 1 5 = some r ∧
        r.length = [(5 : Int), 2, 9, 1, 5, 6, 0].length ∧
        r.take 1 = [(5 : Int), 2, 9, 1, 5, 6, 0].take 1 ∧
        r.drop (5 + 1) = [(5 : Int), 2, 9, 1, 5, 6, 0].drop (5 + 1) ∧
        (segment r 1 5).Sorted (· ≤ ·) ∧
        (segment r 1 5).Perm (segment [5, 2, 9, 1, 5, 6, 0] 1 5) :=
  ⟨by decide, MergeSort_sorted [5, 2, 9, 1, 5, 6, 0] 1 5 (by decide) (by decide)⟩

/-- The call of `main` on an array of `LENGTH` 7 cells, evaluated. -/
theorem MergeSort_main_example :
    MergeSort [5, 2, 9, 1, 5, 6, 0] 0 6 = some [0, 1, 2, 5, 5, 6, 9] := by
  simp [MergeSort, mergeLoop, copyBack, takesRight]

end Merge

namespace Radix

/-! ### The queue -/

theorem chain_nil (nodes : List (Option node)) (p last : Option Nat) :
    chain nodes p [] last ↔ p = none := by
  rw [chain]

theorem chain_cons (nodes : List (Option node)) (p last : Option Nat) (x : Int)
    (xs : List Int) :
    chain nodes p (x :: xs) last ↔
      ∃ a nx, p = some a ∧ nodes[a]? = some (some ⟨x, nx⟩) ∧ (xs = [] → last = some a) ∧
        (∀ b, nx = some b → a < b) ∧ chain nodes nx xs last := by
  rw [chain]

/-- The node `last` of a chain that is not empty has no successor. -/
theorem chain_last : ∀ (l : List Int) (nodes : List (Option node)) (p last : Option Nat),
    chain nodes p l last → l ≠ [] →
      ∃ t e, last = some t ∧ nodes[t]? = some (some ⟨e, none⟩) := by
  intro l
  induction l with
  | nil => intro nodes p last _ h; exact absurd rfl h
  | cons x xs ih =>
    intro nodes p last h _
    obtain ⟨a, nx, -, ha, hl, -, hc⟩ := (chain_cons nodes p last x xs).mp h
    cases xs with
    | nil =>
      have hnx : nx = none := (chain_nil nodes nx last).mp hc
      subst hnx
      exact ⟨a, x, hl rfl, ha⟩
    | cons y ys => exact ih nodes nx last hc (List.cons_ne_nil _ _)

/-- A write below the first node of a chain leaves the chain. -/
theorem chain_set_below : ∀ (l : List Int) (nodes : List (Option node)) (p last : Option Nat)
    (a : Nat) (v : Option node),
    chain nodes p l last → (∀ b, p = some b → a < b) → chain (nodes.set a v) p l last := by
  intro l
  induction l with
  | nil =>
    intro nodes p last a v h _
    exact (chain_nil _ p last).mpr ((chain_nil nodes p last).mp h)
  | cons x xs ih =>
    intro nodes p last a v h hlt
    obtain ⟨c, nx, hp, hc, hl, hord, hrest⟩ := (chain_cons nodes p last x xs).mp h
    refine (chain_cons _ p last x xs).mpr ⟨c, nx, hp, ?_, hl, hord, ?_⟩
    · have hac : a < c := hlt c hp
      rw [List.getElem?_set, if_neg (by omega)]
      exact hc
    · refine ih nodes nx last a v hrest ?_
      intro b hb
      exact lt_trans (hlt c hp) (hord b hb)

/-- The chain after `enqueue` on a queue that is not empty: the new node is
linked behind the node `t`, the last one. -/
theorem chain_snoc (d e : Int) (t : Nat) :
    ∀ (l : List Int) (nodes : List (Option node)) (p : Option Nat),
      chain nodes p l (some t) → l ≠ [] → nodes[t]? = some (some ⟨e, none⟩) →
      chain ((nodes ++ [some (node.mk d none)]).set t (some (node.mk e (some nodes.length)))) p (l ++ [d])
        (some nodes.length) := by
  intro l
  induction l with
  | nil => intro nodes p _ h; exact absurd rfl h
  | cons x xs ih =>
    intro nodes p h _ ht
    obtain ⟨a, nx, hp, ha, hl, hord, hrest⟩ := (chain_cons nodes p (some t) x xs).mp h
    have htlt : t < nodes.length := by
      by_contra hge
      rw [List.getElem?_eq_none (by omega)] at ht
      cases ht
    cases xs with
    | nil =>
      have hnx : nx = none := (chain_nil nodes nx _).mp hrest
      subst hnx
      have hta : t = a := by
        have := hl rfl
        exact Option.some.inj this
      subst hta
      rw [ha] at ht
      have hxe : x = e := by
        have h1 := Option.some.inj (Option.some.inj ht)
        exact congrArg node.data h1
      subst hxe
      rw [List.singleton_append]
      refine (chain_cons _ p _ x [d]).mpr ⟨t, some nodes.length, hp, ?_, ?_, ?_, ?_⟩
      · rw [List.getElem?_set, if_pos rfl, if_pos (by rw [List.length_append]; simp; omega)]
      · intro hne
        cases hne
      · intro b hb
        have := Option.some.inj hb
        omega
      · refine (chain_cons _ _ _ d []).mpr ⟨nodes.length, none, rfl, ?_, fun _ => rfl, ?_, ?_⟩
        · rw [List.getElem?_set, if_neg (by omega), List.getElem?_append_right (le_refl _)]
          simp
        · intro b hb
          cases hb
        · exact (chain_nil _ _ _).mpr rfl
    | cons y ys =>
      have hstep := ih nodes nx hrest (List.cons_ne_nil _ _) ht
      obtain ⟨a1, nx1, hnx, -, -, -, -⟩ := (chain_cons nodes nx (some t) y ys).mp hrest
      have hat : a ≠ t := by
        intro hat
        subst hat
        rw [ha] at ht
        have h1 := Option.some.inj (Option.some.inj ht)
        have h2 := congrArg node.next h1
        simp only [] at h2
        rw [hnx] at h2
        cases h2
      have halt : a < nodes.length := by
        by_contra hge
        rw [List.getElem?_eq_none (by omega)] at ha
        cases ha
      rw [List.cons_append]
      refine (chain_cons _ p _ x ((y :: ys) ++ [d])).mpr ⟨a, nx, hp, ?_, ?_, hord, hstep⟩
      · rw [List.getElem?_set, if_neg (fun h => hat h.symm), List.getElem?_append_left halt]
        exact ha
      · intro hne
        cases hne

theorem holds_initQueue : Holds initQueue [] :=
  ⟨⟨[], none, none⟩, rfl, (chain_nil _ _ _).mpr rfl⟩

theorem isEmpty_of_holds (p : Option Queue) (l : List Int) (h : Holds p l) :
    isEmpty p = some (decide (l = [])) := by
  obtain ⟨q, hq, hc⟩ := h
  subst hq
  cases l with
  | nil =>
    have := (chain_nil _ _ _).mp hc
    simp [isEmpty, this]
  | cons x xs =>
    obtain ⟨a, nx, hp, -, -, -, -⟩ := (chain_cons _ _ _ x xs).mp hc
    simp [isEmpty, hp]

/-- The function `enqueue` on a queue that holds `l`: it returns `data`, and
the queue holds `l` with `data` at the back. -/
theorem enqueue_holds (p : Option Queue) (l : List Int) (data : Int) (h : Holds p l) :
    ∃ p1, enqueue p data = some (p1, data) ∧ Holds p1 (l ++ [data]) := by
  obtain ⟨q, hq, hc⟩ := h
  subst hq
  cases l with
  | nil =>
    have hh := (chain_nil _ _ _).mp hc
    refine ⟨some ⟨q.nodes ++ [some (node.mk data none)], some q.nodes.length, some q.nodes.length⟩,
      ?_, _, rfl, ?_⟩
    · simp [enqueue, hh, createNode]
    · rw [List.nil_append]
      refine (chain_cons _ _ _ data []).mpr ⟨q.nodes.length, none, rfl, ?_, fun _ => rfl, ?_, ?_⟩
      · simp
      · intro b hb
        cases hb
      · exact (chain_nil _ _ _).mpr rfl
  | cons x xs =>
    obtain ⟨t, e, hl, ht⟩ := chain_last _ _ _ _ hc (List.cons_ne_nil _ _)
    obtain ⟨a, nx, hp, -, -, -, -⟩ := (chain_cons _ _ _ x xs).mp hc
    refine ⟨some ⟨(q.nodes ++ [some (node.mk data none)]).set t (some (node.mk e (some q.nodes.length))),
      q.head, some q.nodes.length⟩, ?_, _, rfl, ?_⟩
    · simp [enqueue, hp, hl, ht, createNode]
    · rw [hl] at hc
      exact chain_snoc data e t _ _ _ hc (List.cons_ne_nil _ _) ht

/-- The function `dequeue` on a queue that holds `x :: xs`: it returns `x`,
and the queue holds `xs`. -/
theorem dequeue_holds (p : Option Queue) (x : Int) (xs : List Int) (h : Holds p (x :: xs)) :
    ∃ p1, dequeue p = some (p1, x) ∧ Holds p1 xs := by
  obtain ⟨q, hq, hc⟩ := h
  subst hq
  obtain ⟨a, nx, hp, ha, -, hord, hrest⟩ := (chain_cons _ _ _ x xs).mp hc
  refine ⟨some ⟨q.nodes.set a none, nx, q.tail⟩, ?_, _, rfl, ?_⟩
  · simp [dequeue, hp, ha]
  · exact chain_set_below xs q.nodes nx q.tail a none hrest hord

/-- The function `dequeue` on an empty queue: it returns -1 and the queue
stays empty. -/
theorem dequeue_empty (p : Option Queue) (h : Holds p []) :
    ∃ p1, dequeue p = some (p1, -1) ∧ Holds p1 [] := by
  obtain ⟨q, hq, hc⟩ := h
  subst hq
  have hh := (chain_nil _ _ _).mp hc
  refine ⟨some q, ?_, q, rfl, hc⟩
  simp [dequeue, hh]

/-! ### The buckets -/

theorem take_set_succ (a : List Int) (j : Nat) (x : Int) (hj : j < a.length) :
    (a.set j x).take (j + 1) = a.take j ++ [x] := by
  rw [List.set_eq_take_append_cons_drop, if_pos hj]
  have hl : (List.take j a ++ [x]).length = j + 1 := by
    rw [List.length_append, List.length_take, List.length_singleton]
    omega
  have he : List.take j a ++ x :: List.drop (j + 1) a =
      (List.take j a ++ [x]) ++ List.drop (j + 1) a := by simp
  rw [he, List.take_left' hl]

theorem bucketsHold_set (buckets : List (Option Queue)) (f : Nat → List Int) (i : Nat)
    (p : Option Queue) (l : List Int) (h : BucketsHold buckets f) (hi : i < 10)
    (hp : Holds p l) : BucketsHold (buckets.set i p) (Function.update f i l) := by
  obtain ⟨hlen, hb⟩ := h
  refine ⟨by rw [List.length_set]; exact hlen, ?_⟩
  intro t ht
  by_cases hti : t = i
  · subst hti
    refine ⟨p, ?_, ?_⟩
    · rw [List.getElem?_set, if_pos rfl, if_pos (by omega)]
    · rw [Function.update_same]
      exact hp
  · obtain ⟨q, hq, hh⟩ := hb t ht
    refine ⟨q, ?_, ?_⟩
    · rw [List.getElem?_set, if_neg (fun h => hti h.symm)]
      exact hq
    · rw [Function.update_noteq hti]
      exact hh

theorem bucketsHold_congr (buckets : List (Option Queue)) (f g : Nat → List Int)
    (h : BucketsHold buckets f) (hfg : ∀ t, t < 10 → f t = g t) : BucketsHold buckets g := by
  obtain ⟨hlen, hb⟩ := h
  refine ⟨hlen, ?_⟩
  intro t ht
  obtain ⟨q, hq, hh⟩ := hb t ht
  exact ⟨q, hq, by rw [← hfg t ht]; exact hh⟩

theorem bucketsHold_replicate : BucketsHold (List.replicate 10 initQueue) (fun _ => []) := by
  refine ⟨List.length_replicate _ _, ?_⟩
  intro i hi
  refine ⟨initQueue, ?_, holds_initQueue⟩
  rw [List.getElem?_replicate, if_pos hi]

theorem digitOf_lt (pow x : Int) : digitOf pow x < 10 := by
  unfold digitOf
  have := Int.tmod_lt_of_pos (x.tdiv pow) (show (0 : Int) < 10 by decide)
  omega

/-- The loop that places the cells: every cell from `i` on goes to the back of
the bucket of its digit. -/
theorem place_spec (array : List Int) (pow : Int) (hpow : 0 < pow)
    (hnn : ∀ x ∈ array, 0 ≤ x) :
    ∀ k i buckets f, BucketsHold buckets f → i + k ≤ array.length →
      ∃ buckets1, place array pow k i buckets = some buckets1 ∧
        BucketsHold buckets1
          (fun d => f d ++ ((array.drop i).take k).filter (fun x => digitOf pow x = d)) := by
  intro k
  induction k with
  | zero =>
    intro i buckets f hb _
    refine ⟨buckets, rfl, bucketsHold_congr buckets f _ hb ?_⟩
    intro t _
    simp
  | succ k ih =>
    intro i buckets f hb hik
    have hi : i < array.length := by omega
    have hx0 : 0 ≤ array[i] := hnn _ (List.getElem_mem hi)
    have hd0 : 0 ≤ (array[i].tdiv pow).tmod 10 :=
      Int.tmod_nonneg _ (Int.tdiv_nonneg hx0 (le_of_lt hpow))
    have hd : digitOf pow array[i] < 10 := digitOf_lt pow _
    obtain ⟨p, hp, hh⟩ := hb.2 _ hd
    obtain ⟨p1, he, hh1⟩ := enqueue_holds p _ array[i] hh
    obtain ⟨buckets1, hpl, hb1⟩ := ih (i + 1) (buckets.set (digitOf pow array[i]) p1)
      (Function.update f (digitOf pow array[i]) (f (digitOf pow array[i]) ++ [array[i]]))
      (bucketsHold_set buckets f _ p1 _ hb hd hh1) (by omega)
    refine ⟨buckets1, ?_, bucketsHold_congr buckets1 _ _ hb1 ?_⟩
    · rw [place, List.getElem?_eq_getElem hi]
      simp only []
      rw [if_neg (ne_of_gt hpow), if_neg (not_lt.mpr hd0)]
      unfold digitOf at hp
      rw [hp]
      simp only []
      rw [he]
      exact hpl
    · intro t _
      rw [List.drop_eq_getElem_cons hi, List.take_succ_cons, List.filter_cons]
      by_cases htd : digitOf pow array[i] = t
      · subst htd
        rw [Function.update_same]
        simp
      · rw [Function.update_noteq (fun h => htd h.symm)]
        simp [htd]

/-- The loop that empties one bucket into the array from `j` on. -/
theorem drainQueue_spec :
    ∀ (l : List Int) room p j (array : List Int), Holds p l → room = array.length - j →
      j + l.length ≤ array.length →
      ∃ p1, drainQueue room p j array =
          some (p1, j + l.length, array.take j ++ l ++ array.drop (j + l.length)) ∧
        Holds p1 [] := by
  intro l
  induction l with
  | nil =>
    intro room p j array hh _ _
    refine ⟨p, ?_, hh⟩
    have he := isEmpty_of_holds p [] hh
    cases room with
    | zero => simp [drainQueue, he]
    | succ r => simp [drainQueue, he]
  | cons x xs ih =>
    intro room p j array hh hroom hlen
    rw [List.length_cons] at hlen
    have he := isEmpty_of_holds p (x :: xs) hh
    obtain ⟨p1, hdq, hh1⟩ := dequeue_holds p x xs hh
    cases room with
    | zero => omega
    | succ r =>
      obtain ⟨p2, hdr, hh2⟩ := ih r p1 (j + 1) (array.set j x) hh1
        (by rw [List.length_set]; omega) (by rw [List.length_set]; omega)
      refine ⟨p2, ?_, hh2⟩
      rw [drainQueue, he]
      simp only [List.cons_ne_nil, decide_False]
      rw [hdq]
      simp only []
      rw [hdr, take_set_succ array j x (by omega), List.drop_set_of_lt _ _ (by omega)]
      simp only [List.length_cons, List.append_assoc, List.singleton_append]
      have e1 : j + 1 + xs.length = j + (xs.length + 1) := by omega
      rw [e1]

/-- The loop that empties the buckets from bucket `i` on into the array from
`j` on. -/
theorem drainAll_spec :
    ∀ k i buckets j (array : List Int) (f : Nat → List Int), i + k = 10 →
      BucketsHold buckets f →
      j + ((List.range' i k).flatMap f).length ≤ array.length →
      ∃ buckets1, drainAll k i buckets j array =
          some (buckets1, array.take j ++ (List.range' i k).flatMap f ++
            array.drop (j + ((List.range' i k).flatMap f).length)) ∧
        BucketsHold buckets1 (fun t => if i ≤ t then [] else f t) := by
  intro k
  induction k with
  | zero =>
    intro i buckets j array f hik hb _
    refine ⟨buckets, ?_, bucketsHold_congr buckets f _ hb ?_⟩
    · simp [drainAll]
    · intro t ht
      rw [if_neg (by omega)]
  | succ k ih =>
    intro i buckets j array f hik hb hlen
    have hi : i < 10 := by omega
    rw [List.range'_succ, List.flatMap_cons, List.length_append] at hlen
    obtain ⟨p, hp, hh⟩ := hb.2 i hi
    obtain ⟨p1, hdq, hh1⟩ := drainQueue_spec (f i) (array.length - j) p j array hh rfl
      (by omega)
    have hcongr : (List.range' (i + 1) k).flatMap (Function.update f i []) =
        (List.range' (i + 1) k).flatMap f := by
      refine List.flatMap_congr ?_
      intro t ht
      rw [List.mem_range'_1] at ht
      rw [Function.update_noteq (by omega)]
    obtain ⟨buckets1, hda, hb1⟩ := ih (i + 1) (buckets.set i p1) (j + (f i).length)
      (array.take j ++ f i ++ array.drop (j + (f i).length)) (Function.update f i [])
      (by omega) (bucketsHold_set buckets f i p1 [] hb hi hh1)
      (by
        rw [hcongr]
        simp only [List.length_append, List.length_take, List.length_drop]
        omega)
    refine ⟨buckets1, ?_, bucketsHold_congr buckets1 _ _ hb1 ?_⟩
    · rw [drainAll, hp]
      simp only []
      rw [hdq]
      simp only []
      rw [hda, hcongr, List.range'_succ, List.flatMap_cons]
      have hl1 : (List.take j array ++ f i).length = j + (f i).length := by
        rw [List.length_append, List.length_take]
        omega
      have e1 : List.take (j + (f i).length)
          (List.take j array ++ f i ++ List.drop (j + (f i).length) array) =
          List.take j array ++ f i := List.take_left' hl1
      have e2 : List.drop (j + (f i).length + ((List.range' (i + 1) k).flatMap f).length)
          (List.take j array ++ f i ++ List.drop (j + (f i).length) array) =
          List.drop (j + ((f i).length + ((List.range' (i + 1) k).flatMap f).length)) array := by
        rw [List.drop_append_eq_append_drop, hl1, List.drop_of_length_le (by omega),
          List.nil_append, List.drop_drop]
        congr 1
        omega
      rw [e1, e2, List.length_append]
      simp only [List.append_assoc]
    · intro t ht
      by_cases h1 : i + 1 ≤ t
      · rw [if_pos h1, if_pos (by omega)]
      · rw [if_neg h1]
        by_cases h2 : t = i
        · subst h2
          rw [Function.update_same, if_pos (le_refl _)]
        · rw [Function.update_noteq h2, if_neg (by omega)]

/-! ### One round on lists -/

theorem filter_lt_succ_perm (key : Int → Nat) (m : Nat) :
    ∀ arr : List Int, (arr.filter fun x => key x < m + 1).Perm
      ((arr.filter fun x => key x < m) ++ arr.filter fun x => key x = m) := by
  intro arr
  induction arr with
  | nil => exact List.Perm.refl _
  | cons x xs ih =>
    rw [List.filter_cons, List.filter_cons, List.filter_cons]
    simp only [decide_eq_true_eq]
    by_cases h1 : key x < m
    · rw [if_pos h1, if_pos (show key x < m + 1 by omega), if_neg (show ¬ key x = m by omega),
        List.cons_append]
      exact List.Perm.cons x ih
    · by_cases h3 : key x = m
      · rw [if_neg h1, if_pos (show key x < m + 1 by omega), if_pos h3]
        exact (List.Perm.cons x ih).trans List.perm_middle.symm
      · rw [if_neg h1, if_neg (show ¬ key x < m + 1 by omega), if_neg h3]
        exact ih

theorem flatMap_range_perm (key : Int → Nat) (arr : List Int) :
    ∀ m, ((List.range m).flatMap fun d => arr.filter fun x => key x = d).Perm
      (arr.filter fun x => key x < m) := by
  intro m
  induction m with
  | zero => simp
  | succ m ih =>
    rw [List.range_succ, List.flatMap_append, List.flatMap_singleton]
    exact (List.Perm.append_right _ ih).trans (filter_lt_succ_perm key m arr).symm

/-- One round permutes the array. -/
theorem pass_perm (pow : Int) (arr : List Int) : (pass pow arr).Perm arr := by
  unfold pass
  have h := flatMap_range_perm (digitOf pow) arr 10
  have he : (arr.filter fun x => digitOf pow x < 10) = arr := by
    rw [List.filter_eq_self]
    intro a _
    exact decide_eq_true (digitOf_lt pow a)
  rw [he] at h
  exact h

/-- One round is stable: two cells of the result are in the order of their
digits, and cells with the same digit keep their order. -/
theorem pass_pairwise (pow : Int) (R : Int → Int → Prop) (arr : List Int)
    (h : arr.Pairwise R) :
    (pass pow arr).Pairwise fun x y =>
      digitOf pow x < digitOf pow y ∨ (digitOf pow x = digitOf pow y ∧ R x y) := by
  unfold pass
  rw [List.pairwise_flatMap]
  constructor
  · intro d _
    refine List.Pairwise.imp_of_mem ?_ (List.Pairwise.filter _ h)
    intro a b ha hb hab
    have h1 := of_decide_eq_true (List.mem_filter.mp ha).2
    have h2 := of_decide_eq_true (List.mem_filter.mp hb).2
    exact Or.inr ⟨by rw [h1, h2], hab⟩
  · refine List.Pairwise.imp ?_ (List.pairwise_lt_range 10)
    intro d1 d2 hlt x hx y hy
    have h1 := of_decide_eq_true (List.mem_filter.mp hx).2
    have h2 := of_decide_eq_true (List.mem_filter.mp hy).2
    exact Or.inl (by rw [h1, h2]; exact hlt)

/-- One round of `RadixSort` on empty buckets is one round on lists, and
leaves the buckets empty. -/
theorem round_spec (array : List Int) (pow : Int) (buckets : List (Option Queue))
    (hpow : 0 < pow) (hnn : ∀ x ∈ array, 0 ≤ x) (hb : BucketsHold buckets fun _ => []) :
    ∃ buckets1 buckets2, place array pow array.length 0 buckets = some buckets1 ∧
      drainAll 10 0 buckets1 0 array = some (buckets2, pass pow array) ∧
      BucketsHold buckets2 fun _ => [] := by
  obtain ⟨buckets1, hpl, hb1⟩ := place_spec array pow hpow hnn array.length 0 buckets _ hb
    (by omega)
  have hb1' : BucketsHold buckets1 fun d => array.filter fun x => digitOf pow x = d := by
    refine bucketsHold_congr buckets1 _ _ hb1 ?_
    intro t _
    simp
  have hpass : (List.range' 0 10).flatMap
      (fun d => array.filter fun x => digitOf pow x = d) = pass pow array := by
    unfold pass
    rw [List.range_eq_range']
  have hlen : (pass pow array).length = array.length := (pass_perm pow array).length_eq
  obtain ⟨buckets2, hda, hb2⟩ := drainAll_spec 10 0 buckets1 0 array _ (by omega) hb1'
    (by rw [hpass, hlen]; omega)
  refine ⟨buckets1, buckets2, hpl, ?_, bucketsHold_congr buckets2 _ _ hb2 ?_⟩
  · rw [hda, hpass, hlen, List.take_zero, List.nil_append, Nat.zero_add,
      List.drop_length, List.append_nil]
  · intro t _
    rw [if_pos (Nat.zero_le _)]

/-! ### The largest cell -/

theorem findMax_spec (array : List Int) :
    ∀ k i max, i + k ≤ array.length →
      ∃ m, findMax array k i max = some m ∧ max ≤ m ∧
        (∀ x ∈ (array.drop i).take k, x ≤ m) ∧ (m = max ∨ m ∈ array) := by
  intro k
  induction k with
  | zero =>
    intro i max _
    exact ⟨max, rfl, le_refl _, by simp, Or.inl rfl⟩
  | succ k ih =>
    intro i max hik
    have hi : i < array.length := by omega
    rw [findMax, List.getElem?_eq_getElem hi]
    simp only []
    rw [List.drop_eq_getElem_cons hi, List.take_succ_cons]
    by_cases hgt : array[i] > max
    · rw [if_pos hgt]
      obtain ⟨m, hm, hle, hall, hmem⟩ := ih (i + 1) array[i] (by omega)
      refine ⟨m, hm, le_trans (le_of_lt hgt) hle, ?_, ?_⟩
      · intro x hx
        rcases List.mem_cons.mp hx with hx | hx
        · rw [hx]
          exact hle
        · exact hall x hx
      · rcases hmem with hmem | hmem
        · exact Or.inr (by rw [hmem]; exact List.getElem_mem hi)
        · exact Or.inr hmem
    · rw [if_neg hgt]
      obtain ⟨m, hm, hle, hall, hmem⟩ := ih (i + 1) max (by omega)
      refine ⟨m, hm, hle, ?_, hmem⟩
      intro x hx
      rcases List.mem_cons.mp hx with hx | hx
      · rw [hx]
        exact le_trans (not_lt.mp hgt) hle
      · exact hall x hx

/-! ### The values of `pow` -/

theorem digitOf_eq (pow x : Int) (hx : 0 ≤ x) (hpow : 0 < pow) :
    digitOf pow x = (x / pow % 10).toNat := by
  unfold digitOf
  rw [Int.tdiv_eq_ediv hx (le_of_lt hpow),
    Int.tmod_eq_emod (Int.ediv_nonneg hx (le_of_lt hpow)) (by decide)]

theorem wrapInt_pow_ne_zero (k : Nat) (hk : k ≤ 12) : wrapInt (10 ^ k) ≠ 0 := by
  interval_cases k <;> decide

theorem wrapInt_pow_succ (k : Nat) (hk : k ≤ 11) :
    wrapInt (wrapInt (10 ^ k) * 10) = wrapInt (10 ^ (k + 1)) := by
  interval_cases k <;> decide

theorem wrapInt_pow_pos (k : Nat) (hk : k ≤ 11) : 0 < wrapInt (10 ^ k) := by
  interval_cases k <;> decide

/-- The loop over `pow` goes on only while `pow` is positive, which it is in
its first twelve rounds. -/
theorem round_of_tdiv_pos (k : Nat) (max : Int) (hk : k ≤ 12) (hmax : 0 ≤ max)
    (h : max.tdiv (wrapInt (10 ^ k)) > 0) : k ≤ 11 := by
  by_contra hlt
  have hk12 : k = 12 := by omega
  subst hk12
  have hw : wrapInt (10 ^ 12) = -727379968 := by decide
  rw [hw, Int.tdiv_neg] at h
  have := Int.tdiv_nonneg hmax (show (0 : Int) ≤ 727379968 by decide)
  omega

/-- A round keeps the order by the digits below `pow` and adds the digit of
`pow` to it; in the two rounds after `pow` has wrapped the digit is 0 or 1 and
grows with the cell. -/
theorem modOrder_step (k : Nat) (x y : Int) (hk : k ≤ 11) (hx : 0 ≤ x) (hx2 : x ≤ INT_MAX)
    (hy : 0 ≤ y) (hy2 : y ≤ INT_MAX)
    (h : digitOf (wrapInt (10 ^ k)) x < digitOf (wrapInt (10 ^ k)) y ∨
      (digitOf (wrapInt (10 ^ k)) x = digitOf (wrapInt (10 ^ k)) y ∧
        x % 10 ^ k ≤ y % 10 ^ k)) :
    x % 10 ^ (k + 1) ≤ y % 10 ^ (k + 1) := by
  rw [digitOf_eq _ x hx (wrapInt_pow_pos k hk), digitOf_eq _ y hy (wrapInt_pow_pos k hk)] at h
  unfold INT_MAX at hx2 hy2
  interval_cases k
  · have hw : wrapInt (10 ^ 0) = 1 := by decide
    rw [hw] at h
    norm_num at h ⊢
    omega
  · have hw : wrapInt (10 ^ 1) = 10 := by decide
    rw [hw] at h
    norm_num at h ⊢
    omega
  · have hw : wrapInt (10 ^ 2) = 100 := by decide
    rw [hw] at h
    norm_num at h ⊢
    omega
  · have hw : wrapInt (10 ^ 3) = 1000 := by decide
    rw [hw] at h
    norm_num at h ⊢
    omega
  · have hw : wrapInt (10 ^ 4) = 10000 := by decide
    rw [hw] at h
    norm_num at h ⊢
    omega
  · have hw : wrapInt (10 ^ 5) = 100000 := by decide
    rw [hw] at h
    norm_num at h ⊢
    omega
  · have hw : wrapInt (10 ^ 6) = 1000000 := by decide
    rw [hw] at h
    norm_num at h ⊢
    omega
  · have hw : wrapInt (10 ^ 7) = 10000000 := by decide
    rw [hw] at h
    norm_num at h ⊢
    omega
  · have hw : wrapInt (10 ^ 8) = 100000000 := by decide
    rw [hw] at h
    norm_num at h ⊢
    omega
  · have hw : wrapInt (10 ^ 9) = 1000000000 := by decide
    rw [hw] at h
    norm_num at h ⊢
    omega
  · have hw : wrapInt (10 ^ 10) = 1410065408 := by decide
    rw [hw] at h
    norm_num at h ⊢
    omega
  · have hw : wrapInt (10 ^ 11) = 1215752192 := by decide
    rw [hw] at h
    norm_num at h ⊢
    omega

/-- When the loop over `pow` ends, the order by the digits below `pow` is the
order of the cells. -/
theorem modOrder_end (k : Nat) (max x y : Int) (hk : k ≤ 12) (hx : 0 ≤ x) (hxm : x ≤ max)
    (hy : 0 ≤ y) (hym : y ≤ max) (hmax : max ≤ INT_MAX)
    (hend : ¬ max.tdiv (wrapInt (10 ^ k)) > 0) (h : x % 10 ^ k ≤ y % 10 ^ k) : x ≤ y := by
  unfold INT_MAX at hmax
  by_cases hk10 : 10 ≤ k
  · have hp : (10 : Int) ^ 10 ≤ 10 ^ k := pow_le_pow_right₀ (by decide) hk10
    have hp10 : (10 : Int) ^ 10 = 10000000000 := by norm_num
    rw [Int.emod_eq_of_lt hx (by omega), Int.emod_eq_of_lt hy (by omega)] at h
    exact h
  · have hpos := wrapInt_pow_pos k (by omega)
    rw [Int.tdiv_eq_ediv (le_trans hx hxm) (le_of_lt hpos)] at hend
    have hw : wrapInt (10 ^ k) = 10 ^ k := by
      interval_cases k <;> decide
    rw [hw] at hend hpos
    have hlt : max < 10 ^ k := by
      by_contra hge
      have h1 := Int.le_ediv_of_mul_le hpos (show 1 * 10 ^ k ≤ max by omega)
      omega
    rw [Int.emod_eq_of_lt hx (by omega), Int.emod_eq_of_lt hy (by omega)] at h
    exact h

theorem wrapInt_mul_ten (a : Int) : wrapInt (wrapInt a * 10) = wrapInt (a * 10) := by
  unfold wrapInt
  omega

/-- The value of `pow` after `k` rounds, from `pow = 1`. -/
theorem pow_after_rounds (k : Nat) :
    Nat.iterate (fun pow => wrapInt (pow * 10)) k 1 = wrapInt (10 ^ k) := by
  induction k with
  | zero => rfl
  | succ k ih =>
    rw [Function.iterate_succ_apply', ih, wrapInt_mul_ten, pow_succ]

/-- The bound of 33 rounds in `RadixSort`: from `pow = 1`, 32 multiplications
by 10 bring the wrapped `pow` to 0, and the loop does not go on from there. -/
theorem pow_wraps_to_zero (n : Nat) (max : Int) (fuel : Nat) (array : List Int)
    (buckets : List (Option Queue)) :
    Nat.iterate (fun pow => wrapInt (pow * 10)) 32 1 = 0 ∧
      powLoop n max fuel 0 array buckets = none := by
  refine ⟨by rw [pow_after_rounds]; decide, ?_⟩
  cases fuel with
  | zero => rfl
  | succ fuel => rw [powLoop, if_pos rfl]

/-! ### The loop over `pow` -/

theorem powLoop_spec (array : List Int) (max : Int)
    (hrange : ∀ x ∈ array, 0 ≤ x ∧ x ≤ INT_MAX) (hmax : ∀ x ∈ array, x ≤ max)
    (hmax0 : 0 ≤ max) (hmax2 : max ≤ INT_MAX) :
    ∀ fuel k (arr : List Int) buckets, fuel + k = 33 → k ≤ 12 → arr.Perm array →
      arr.Pairwise (fun x y => x % 10 ^ k ≤ y % 10 ^ k) →
      BucketsHold buckets (fun _ => []) →
      ∃ r b, powLoop array.length max fuel (wrapInt (10 ^ k)) arr buckets = some (r, b) ∧
        r.Sorted (· ≤ ·) ∧ r.Perm array ∧ BucketsHold b (fun _ => []) := by
  intro fuel
  induction fuel with
  | zero =>
    intro k arr buckets hf hk _ _ _
    omega
  | succ fuel ih =>
    intro k arr buckets hf hk hperm hpw hb
    have hmem : ∀ x, x ∈ arr → x ∈ array := fun x hx => hperm.mem_iff.mp hx
    rw [powLoop, if_neg (wrapInt_pow_ne_zero k hk)]
    by_cases hgo : max.tdiv (wrapInt (10 ^ k)) > 0
    · rw [if_pos hgo]
      have hk11 : k ≤ 11 := round_of_tdiv_pos k max hk hmax0 hgo
      obtain ⟨b1, b2, hpl, hda, hb2⟩ := round_spec arr (wrapInt (10 ^ k)) buckets
        (wrapInt_pow_pos k hk11) (fun x hx => (hrange x (hmem x hx)).1) hb
      rw [hperm.length_eq] at hpl
      rw [hpl]
      simp only []
      rw [hda]
      simp only []
      rw [wrapInt_pow_succ k hk11]
      have hpp := pass_perm (wrapInt (10 ^ k)) arr
      refine ih (k + 1) (pass (wrapInt (10 ^ k)) arr) b2 (by omega) (by omega)
        (hpp.trans hperm) ?_ hb2
      refine List.Pairwise.imp_of_mem ?_ (pass_pairwise (wrapInt (10 ^ k)) _ arr hpw)
      intro x y hx hy hxy
      have hx1 := hrange x (hmem x (hpp.mem_iff.mp hx))
      have hy1 := hrange y (hmem y (hpp.mem_iff.mp hy))
      exact modOrder_step k x y hk11 hx1.1 hx1.2 hy1.1 hy1.2 hxy
    · rw [if_neg hgo]
      refine ⟨arr, buckets, rfl, ?_, hperm, hb⟩
      refine List.Pairwise.imp_of_mem ?_ hpw
      intro x y hx hy hxy
      exact modOrder_end k max x y hk (hrange x (hmem x hx)).1 (hmax x (hmem x hx))
        (hrange y (hmem y hy)).1 (hmax y (hmem y hy)) hmax2 hgo hxy

/-- C17: for every array of `n > 0` non-negative `int` values, the call
`RadixSort(array, n)` returns; afterwards the array is in non-decreasing order
and a permutation of the input, and each of the ten bucket queues is empty. -/
theorem RadixSort_sorted (array : List Int) (hn : 0 < array.length)
    (hrange : ∀ x ∈ array, 0 ≤ x ∧ x ≤ INT_MAX) :
    ∃ r buckets, RadixSort array array.length = some (r, buckets) ∧ r.Sorted (· ≤ ·) ∧
      r.Perm array ∧ buckets.length = 10 ∧ ∀ p ∈ buckets, isEmpty p = some true := by
  obtain ⟨m, hm, hle, hall, hmem⟩ := findMax_spec array (array.length - 1) 1 array[0]
    (by omega)
  have h0 : array[0] ∈ array := List.getElem_mem hn
  have hm_mem : m ∈ array := by
    rcases hmem with h | h
    · rw [h]
      exact h0
    · exact h
  have hmax : ∀ x ∈ array, x ≤ m := by
    intro x hx
    have hsplit : array = array[0] :: (array.drop 1).take (array.length - 1) := by
      rw [List.take_of_length_le (by rw [List.length_drop]), ← List.drop_eq_getElem_cons hn,
        List.drop_zero]
    rw [hsplit] at hx
    rcases List.mem_cons.mp hx with hx | hx
    · rw [hx]
      exact hle
    · exact hall x hx
  have hone : (1 : Int) = wrapInt (10 ^ 0) := by decide
  obtain ⟨r, b, hr, hs, hp, hb⟩ := powLoop_spec array m hrange hmax (hrange m hm_mem).1
    (hrange m hm_mem).2 33 0 array (List.replicate 10 initQueue) rfl (by omega)
    (List.Perm.refl _)
    (by
      refine List.Pairwise.imp ?_ (List.pairwise_of_forall (fun _ _ => trivial) :
        array.Pairwise fun _ _ => True)
      intro x y _
      simp)
    bucketsHold_replicate
  refine ⟨r, b, ?_, hs, hp, hb.1, ?_⟩
  · unfold RadixSort
    rw [List.getElem?_eq_getElem hn]
    simp only []
    rw [hm]
    simp only []
    rw [hone]
    exact hr
  · intro p hp
    obtain ⟨i, hi, hpi⟩ := List.getElem_of_mem hp
    obtain ⟨q, hq, hh⟩ := hb.2 i (by rw [← hb.1]; exact hi)
    rw [List.getElem?_eq_getElem hi, hpi] at hq
    rw [Option.some.inj hq, isEmpty_of_holds q [] hh]
    rfl

/-- The theorem on an array with `INT_MAX` in it, where `pow` wraps. -/
theorem RadixSort_sorted_witness :
    (0 < [(2147483647 : Int), 170, 1000000000, 0, 45].length ∧
      ∀ x ∈ [(2147483647 : Int), 170, 1000000000, 0, 45], 0 ≤ x ∧ x ≤ INT_MAX) ∧
    ∃ r buckets, RadixSort [2147483647, 170, 1000000000, 0, 45]
        [(2147483647 : Int), 170, 1000000000, 0, 45].length = some (r, buckets) ∧
      r.Sorted (· ≤ ·) ∧ r.Perm [2147483647, 170, 1000000000, 0, 45] ∧
      buckets.length = 10 ∧ ∀ p ∈ buckets, isEmpty p = some true :=
  ⟨⟨by decide, by decide⟩,
    RadixSort_sorted [2147483647, 170, 1000000000, 0, 45] (by decide) (by decide)⟩

/-- The function on the array `170 45 75 90 2 802 24`, evaluated. -/
theorem RadixSort_example :
    (RadixSort [170, 45, 75, 90, 2, 802, 24] 7).map Prod.fst =
      some [2, 24, 45, 75, 90, 170, 802] := by
  decide

/-- The function on an array with `INT_MAX` in it, where `pow` wraps,
evaluated. -/
theorem RadixSort_example_wrap :
    (RadixSort [2147483647, 170, 1000000000, 0, 45] 5).map Prod.fst =
      some [0, 45, 170, 1000000000, 2147483647] := by
  decide

end Radix

namespace Radix

/-! ### The queue is first-in first-out -/

/-- A sequence of calls on a queue that holds `l` returns what the
first-in first-out queue returns, and the queue holds what that queue holds. -/
theorem callAll_spec :
    ∀ (calls : List Call) (p : Option Queue) (l : List Int), Holds p l →
      ∃ p1, callAll p calls = some (p1, (fifoAll l calls).2) ∧ Holds p1 (fifoAll l calls).1 := by
  intro calls
  induction calls with
  | nil =>
    intro p l h
    exact ⟨p, rfl, h⟩
  | cons c rest ih =>
    intro p l h
    cases c with
    | enqueue data =>
      obtain ⟨p1, he, h1⟩ := enqueue_holds p l data h
      obtain ⟨p2, hr, h2⟩ := ih p1 (l ++ [data]) h1
      refine ⟨p2, ?_, h2⟩
      simp only [callAll, he, hr, fifoAll, fifoCall]
    | dequeue =>
      cases l with
      | nil =>
        obtain ⟨p1, hd, h1⟩ := dequeue_empty p h
        obtain ⟨p2, hr, h2⟩ := ih p1 [] h1
        refine ⟨p2, ?_, h2⟩
        simp only [callAll, hd, hr, fifoAll, fifoCall]
      | cons x xs =>
        obtain ⟨p1, hd, h1⟩ := dequeue_holds p x xs h
        obtain ⟨p2, hr, h2⟩ := ih p1 xs h1
        refine ⟨p2, ?_, h2⟩
        simp only [callAll, hd, hr, fifoAll, fifoCall]

/-- C21: the queue of `queue.c` is first-in first-out.  From `initQueue`, every
finite sequence of `enqueue` and `dequeue` calls runs without a fault and
returns, call by call, what the first-in first-out queue returns: `enqueue`
returns its value and puts it at the back, `dequeue` returns the oldest value
not yet taken, and on an empty queue it returns -1 and leaves the queue empty,
also after the queue has been emptied and filled again.  Afterwards `isEmpty`
tells whether that queue is empty, and the nodes hold its values in order. -/
theorem queue_fifo (calls : List Call) :
    ∃ p, callAll initQueue calls = some (p, (fifoAll [] calls).2) ∧
      isEmpty p = some (decide ((fifoAll [] calls).1 = [])) ∧
      Holds p (fifoAll [] calls).1 := by
  obtain ⟨p, hc, hh⟩ := callAll_spec calls initQueue [] holds_initQueue
  exact ⟨p, hc, isEmpty_of_holds p _ hh, hh⟩

/-- A run that empties the queue, takes from the empty queue and fills it
again, evaluated: the values returned. -/
theorem queue_fifo_example :
    (callAll initQueue
        [.enqueue 1, .enqueue 2, .dequeue, .enqueue 3, .dequeue, .dequeue, .dequeue,
          .enqueue 4, .enqueue 5, .dequeue, .dequeue, .dequeue]).map Prod.snd =
      some [1, 2, 1, 3, 2, 3, -1, 4, 5, 4, 5, -1] := by
  decide

end Radix
